import Mathlib

/-!
Verification of pr-buddy's diff formatter and PR change aggregator.

Shallow embedding of `backend/tools/git_repositories.py`:

* `generate_git_style_diff` builds a line-numbered diff from two file
  contents using Python's `difflib.SequenceMatcher(None, old_lines, new_lines)`.
  We embed the matcher (as instantiated by the source: `isjunk = None`, default
  `autojunk = True`) faithfully: occurrence table `b2j` with the autojunk purge
  of popular elements, the `find_longest_match` dynamic-programming loop, the
  extension loops (with an empty junk set, the two junk-extension loops are
  unreachable and the two non-junk extension loops extend over any equal
  elements), the recursive matching-block collection, adjacent-block merging,
  the terminating sentinel, and opcode generation.

* `get_pr_changes` filters folder entries out of a raw branch diff, recomputes
  change-type counts, applies an extension denylist and a `max_files` cap,
  fetches contents per file with per-file error isolation, and reports a
  truncation note.  The two Azure DevOps capabilities used by the source
  (`client.git.get_branch_diff` and `client.git.get_file_content`) are passed
  in explicitly: the branch-diff result as an `Except String RawDiff` and the
  content fetch as a function `String → String → Except String Content`
  (branch, path → result), where `Except.error` stands for a raised exception
  carrying `str(e)`.
-/

namespace PrBuddy

/-! ## Python `str.splitlines` -/

/-- Python line-break characters recognised by `str.splitlines`:
`\n`, `\r`, `\v` (0x0B), `\f` (0x0C), FS/GS/RS (0x1C–0x1E), NEL (0x85),
LINE SEPARATOR (0x2028) and PARAGRAPH SEPARATOR (0x2029).  `\r\n` is
treated as a single break. -/
def isLineBreak (c : Char) : Bool :=
  c = '\n' || c = '\r' || c.val = 0x0B || c.val = 0x0C || c.val = 0x1C ||
  c.val = 0x1D || c.val = 0x1E || c.val = 0x85 || c.val = 0x2028 || c.val = 0x2029

/-- Worker for `splitlines`: `acc` holds the current line, reversed; a
`'\r'` immediately followed by `'\n'` consumes both characters. -/
def splitlinesAux : List Char → List Char → List String
  | [], acc => if acc.isEmpty then [] else [String.mk acc.reverse]
  | [c], acc =>
    if isLineBreak c then String.mk acc.reverse :: splitlinesAux [] []
    else splitlinesAux [] (c :: acc)
  | c :: c2 :: rest, acc =>
    if c = '\r' ∧ c2 = '\n' then String.mk acc.reverse :: splitlinesAux rest []
    else if isLineBreak c then
      String.mk acc.reverse :: splitlinesAux (c2 :: rest) []
    else splitlinesAux (c2 :: rest) (c :: acc)

/-- Python `str.splitlines()`: split on line-break boundaries; a trailing
break does not produce a final empty line, and `"".splitlines() == []`. -/
def splitlines (s : String) : List String :=
  splitlinesAux s.data []

/-! ## `difflib.SequenceMatcher(None, a, b)` over line lists -/

/-- Ascending list of indices `j` with `b[j] = x`
(the occurrence lists stored in the matcher's `b2j` table). -/
def idxsOf (b : List String) (x : String) : List Nat :=
  (List.range b.length).filter fun j => b.getD j "" = x

/-- `b2j` lookup after the autojunk purge: with `isjunk = None` and
`autojunk = True`, when `len(b) >= 200` every element occurring more than
`len(b) // 100 + 1` times is dropped from the table. -/
def b2jGet (b : List String) (x : String) : List Nat :=
  let idxs := idxsOf b x
  if 200 ≤ b.length ∧ b.length / 100 + 1 < idxs.length then [] else idxs

/-- A candidate best block: `(besti, bestj, bestsize)`. -/
abbrev Block := Nat × Nat × Nat

/-- One `j`-step of the inner loop of `find_longest_match`:
`k = newj2len[j] = j2len.get(j-1, 0) + 1`, updating the best block when
`k > bestsize` (Python's `i-k+1`, `j-k+1` in truncated ℕ form). -/
def flmInnerStep (j2len : Nat → Nat) (i : Nat) (st : (Nat → Nat) × Block)
    (j : Nat) : (Nat → Nat) × Block :=
  let k := (if j = 0 then 0 else j2len (j - 1)) + 1
  let newj2len := fun j' => if j' = j then k else st.1 j'
  if st.2.2.2 < k then (newj2len, (i + 1 - k, j + 1 - k, k)) else (newj2len, st.2)

/-- One `i`-iteration of the outer loop of `find_longest_match`: walk the
occurrence list of `a[i]` restricted to the window `[blo, bhi)`
(Python skips `j < blo` and breaks at `j >= bhi`), rebuilding `j2len`. -/
def flmOuterStep (a b : List String) (blo bhi : Nat)
    (st : (Nat → Nat) × Block) (i : Nat) : (Nat → Nat) × Block :=
  let js := (b2jGet b (a.getD i "")).filter fun j => blo ≤ j ∧ j < bhi
  js.foldl (flmInnerStep st.1 i) (fun _ => 0, st.2)

/-- The dynamic-programming phase of `find_longest_match` over the window
`a[alo:ahi]`, `b[blo:bhi]`, starting from `besti, bestj, bestsize = alo, blo, 0`. -/
def flmMain (a b : List String) (alo ahi blo bhi : Nat) : Block :=
  ((List.range' alo (ahi - alo)).foldl (flmOuterStep a b blo bhi)
    (fun _ => 0, (alo, blo, 0))).2

/-- The backward extension loop of `find_longest_match`.  With `isjunk = None`
the junk set is empty, so `not isbjunk(b[bestj-1])` always holds and the later
backward junk-extension loop is unreachable; the combined effect is to extend
while `besti > alo and bestj > blo` and the neighbouring elements are equal
(the `besti = 0` case returns unchanged, exactly as the `besti > alo` guard
does). -/
def extendBack (a b : List String) (alo blo : Nat) :
    Nat → Nat → Nat → Block
  | 0, bestj, bestsize => (0, bestj, bestsize)
  | besti + 1, bestj, bestsize =>
    if alo < besti + 1 ∧ blo < bestj ∧
        a.getD besti "" = b.getD (bestj - 1) "" then
      extendBack a b alo blo besti (bestj - 1) (bestsize + 1)
    else
      (besti + 1, bestj, bestsize)

/-- The forward extension loop of `find_longest_match` (again with an empty
junk set, so the forward junk-extension loop is unreachable), counted down by
the remaining window room `gap = ahi - (besti + bestsize)`: the loop guard
`besti + bestsize < ahi` is exactly `gap > 0`. -/
def extendFwdAux (a b : List String) (bhi besti bestj : Nat) :
    Nat → Nat → Nat
  | 0, bestsize => bestsize
  | gap + 1, bestsize =>
    if bestj + bestsize < bhi ∧
        a.getD (besti + bestsize) "" = b.getD (bestj + bestsize) "" then
      extendFwdAux a b bhi besti bestj gap (bestsize + 1)
    else
      bestsize

/-- The forward extension loop of `find_longest_match`. -/
def extendFwd (a b : List String) (ahi bhi besti bestj bestsize : Nat) : Nat :=
  extendFwdAux a b bhi besti bestj (ahi - (besti + bestsize)) bestsize

/-- `find_longest_match(alo, ahi, blo, bhi)` as called by `get_matching_blocks`. -/
def findLongestMatch (a b : List String) (alo ahi blo bhi : Nat) : Block :=
  let m := flmMain a b alo ahi blo bhi
  let e := extendBack a b alo blo m.1 m.2.1 m.2.2
  (e.1, e.2.1, extendFwd a b ahi bhi e.1 e.2.1 e.2.2)

/-- The recursive block collection of `get_matching_blocks` (the queue-based
loop of the source visits exactly these windows; sorting its output yields
this left-to-right order).  `fuel` dominates the recursion depth; the top
entry point supplies `a.length + b.length + 1`, which suffices because each
recursive window is strictly smaller. -/
def matchingBlocksAux (a b : List String) :
    Nat → Nat → Nat → Nat → Nat → List Block
  | 0, _, _, _, _ => []
  | fuel + 1, alo, ahi, blo, bhi =>
    let m := findLongestMatch a b alo ahi blo bhi
    if m.2.2 = 0 then []
    else
      matchingBlocksAux a b fuel alo m.1 blo m.2.1 ++ [m] ++
        matchingBlocksAux a b fuel (m.1 + m.2.2) ahi (m.2.1 + m.2.2) bhi

/-- The adjacent-block merge loop of `get_matching_blocks`, threading the
pending group `(i1, j1, k1)`: an adjacent next block
(`i1+k1 == i2 and j1+k1 == j2`) is absorbed into the pending group, otherwise
the pending group is emitted (when nonempty) and the next block becomes
pending; the final pending group is emitted when nonempty. -/
def mergeAux : Nat → Nat → Nat → List Block → List Block
  | i1, j1, k1, [] => if k1 = 0 then [] else [(i1, j1, k1)]
  | i1, j1, k1, (i2, j2, k2) :: rest =>
    if i1 + k1 = i2 ∧ j1 + k1 = j2 then mergeAux i1 j1 (k1 + k2) rest
    else (if k1 = 0 then [] else [(i1, j1, k1)]) ++ mergeAux i2 j2 k2 rest

/-- The adjacent-block merge of `get_matching_blocks` (pending group starts
as `i1 = j1 = k1 = 0`), with the `(la, lb, 0)` sentinel appended. -/
def mergeBlocks (blocks : List Block) (la lb : Nat) : List Block :=
  mergeAux 0 0 0 blocks ++ [(la, lb, 0)]

/-- `SequenceMatcher(None, a, b).get_matching_blocks()`. -/
def getMatchingBlocks (a b : List String) : List Block :=
  mergeBlocks (matchingBlocksAux a b (a.length + b.length + 1) 0 a.length 0 b.length)
    a.length b.length

/-- Opcode tags of `get_opcodes`. -/
inductive OpTag where
  | replace
  | delete
  | insert
  | equal
  deriving DecidableEq, Repr

/-- One opcode `(tag, i1, i2, j1, j2)`. -/
structure Opcode where
  tag : OpTag
  i1 : Nat
  i2 : Nat
  j1 : Nat
  j2 : Nat
  deriving DecidableEq, Repr

/-- The emission loop of `get_opcodes`: from the running position `(i, j)`,
each matching block first yields a `replace`/`delete`/`insert` opcode for the
gap before it (when the gap is nonempty on the respective sides) and then an
`equal` opcode for the block itself when its size is nonzero. -/
def opcodesAux : Nat → Nat → List Block → List Opcode
  | _, _, [] => []
  | i, j, (ai, bj, size) :: rest =>
    (if i < ai ∧ j < bj then [⟨.replace, i, ai, j, bj⟩]
     else if i < ai then [⟨.delete, i, ai, j, bj⟩]
     else if j < bj then [⟨.insert, i, ai, j, bj⟩]
     else []) ++
    (if size ≠ 0 then [⟨.equal, ai, ai + size, bj, bj + size⟩] else []) ++
    opcodesAux (ai + size) (bj + size) rest

/-- `SequenceMatcher(None, a, b).get_opcodes()`. -/
def getOpcodes (a b : List String) : List Opcode :=
  opcodesAux 0 0 (getMatchingBlocks a b)

/-! ## `generate_git_style_diff` -/

/-- One rendered diff line of `generate_git_style_diff`, before formatting:
an unchanged line carries both counters, a removed line only the old counter,
an added line only the new counter.  A `replace` opcode is rendered as its
removed run followed by its added run, so it introduces no separate kind. -/
inductive DiffEntry where
  | equal (oldNo newNo : Nat) (text : String)
  | removed (oldNo : Nat) (text : String)
  | added (newNo : Nat) (text : String)
  deriving DecidableEq, Repr

/-- Python slice `lines[i1:i2]`. -/
def slice (lines : List String) (i1 i2 : Nat) : List String :=
  (lines.drop i1).take (i2 - i1)

/-- `for i, line in enumerate(slice): emit Unchanged(old+i, new+i, line)`. -/
def equalEntries : Nat → Nat → List String → List DiffEntry
  | _, _, [] => []
  | o, n, t :: ts => .equal o n t :: equalEntries (o + 1) (n + 1) ts

/-- `for i, line in enumerate(slice): emit Removed(old+i, line)`. -/
def removedEntries : Nat → List String → List DiffEntry
  | _, [] => []
  | o, t :: ts => .removed o t :: removedEntries (o + 1) ts

/-- `for i, line in enumerate(slice): emit Added(new+i, line)`. -/
def addedEntries : Nat → List String → List DiffEntry
  | _, [] => []
  | n, t :: ts => .added n t :: addedEntries (n + 1) ts

/-- The rendering loop of `generate_git_style_diff` over the opcode list,
threading `(old_line_num, new_line_num)`: `equal` emits the old-line slice
with both counters, `delete` emits it with the old counter and advances only
that counter, `insert` emits the new-line slice with the new counter, and
`replace` emits the removed run immediately followed by the added run. -/
def diffEntriesAux (previousLines currentLines : List String) :
    Nat → Nat → List Opcode → List DiffEntry
  | _, _, [] => []
  | oldN, newN, op :: rest =>
    match op.tag with
    | .equal =>
      equalEntries oldN newN (slice previousLines op.i1 op.i2) ++
        diffEntriesAux previousLines currentLines
          (oldN + (op.i2 - op.i1)) (newN + (op.j2 - op.j1)) rest
    | .delete =>
      removedEntries oldN (slice previousLines op.i1 op.i2) ++
        diffEntriesAux previousLines currentLines
          (oldN + (op.i2 - op.i1)) newN rest
    | .insert =>
      addedEntries newN (slice currentLines op.j1 op.j2) ++
        diffEntriesAux previousLines currentLines
          oldN (newN + (op.j2 - op.j1)) rest
    | .replace =>
      removedEntries oldN (slice previousLines op.i1 op.i2) ++
        addedEntries newN (slice currentLines op.j1 op.j2) ++
        diffEntriesAux previousLines currentLines
          (oldN + (op.i2 - op.i1)) (newN + (op.j2 - op.j1)) rest

/-- The structured rendering of `generate_git_style_diff` over already split
line lists: both counters start at 1. -/
def diffEntries (previousLines currentLines : List String) : List DiffEntry :=
  diffEntriesAux previousLines currentLines 1 1 (getOpcodes previousLines currentLines)

/-- Python `f"{n:4d}"`: decimal rendering right-aligned in a 4-wide field. -/
def pad4 (n : Nat) : String :=
  let s := toString n
  if s.length < 4 then String.mk (List.replicate (4 - s.length) ' ') ++ s else s

/-- Formatting of one diff entry, matching the f-strings of the source:
`f"{old:4d} {new:4d}  {line}"`, `f"{old:4d}      - {line}"`,
`f"     {new:4d} + {line}"`. -/
def renderEntry : DiffEntry → String
  | .equal o n t => pad4 o ++ " " ++ pad4 n ++ "  " ++ t
  | .removed o t => pad4 o ++ "      - " ++ t
  | .added n t => "     " ++ pad4 n ++ " + " ++ t

/-- `generate_git_style_diff(previous_content, current_content)` (for string
inputs, on which the defensive `str()` coercion is the identity). -/
def generate_git_style_diff (previousContent currentContent : String) : String :=
  let previousLines := splitlines previousContent
  let currentLines := splitlines currentContent
  String.intercalate "\n" ((diffEntries previousLines currentLines).map renderEntry)

/-! ## `get_pr_changes` -/

/-- The `item` object of a change entry of the branch-diff response, reduced
to the two fields the aggregator reads (`change.get("item", {}).get("path", "")`
and `...get("isFolder", False)`, with the dictionary defaults folded in). -/
structure Item where
  path : String
  isFolder : Bool
  deriving DecidableEq, Repr

/-- One change entry of the branch-diff response
(`change.get("changeType", "")` with its default folded in). -/
structure Change where
  changeType : String
  item : Item
  deriving DecidableEq, Repr

/-- The raw branch-diff response: the change list and the upstream-provided
`changeCounts` (which the aggregator discards and recomputes). -/
structure RawDiff where
  changes : List Change
  changeCounts : List (String × Nat) := []
  deriving DecidableEq, Repr

/-- A fetched file body: `get_file_content` returns text or bytes. -/
inductive Content where
  | text (s : String)
  | bytes (bs : List Nat)
  deriving DecidableEq, Repr

/-- Strict UTF-8 decoding of one multi-byte sequence: the lead byte together
with its continuation bytes, rejecting overlong encodings, surrogates and
code points above `U+10FFFF`, exactly as Python's `bytes.decode("utf-8")`. -/
def utf8Cont (lead : Nat) (conts : List Nat) : Option Nat :=
  match conts with
  | [c1] =>
    if 0xC2 ≤ lead ∧ lead ≤ 0xDF ∧ 0x80 ≤ c1 ∧ c1 ≤ 0xBF then
      some ((lead - 0xC0) * 0x40 + (c1 - 0x80))
    else none
  | [c1, c2] =>
    let lo1 := if lead = 0xE0 then 0xA0 else 0x80
    let hi1 := if lead = 0xED then 0x9F else 0xBF
    if 0xE0 ≤ lead ∧ lead ≤ 0xEF ∧ lo1 ≤ c1 ∧ c1 ≤ hi1 ∧ 0x80 ≤ c2 ∧ c2 ≤ 0xBF then
      some ((lead - 0xE0) * 0x1000 + (c1 - 0x80) * 0x40 + (c2 - 0x80))
    else none
  | [c1, c2, c3] =>
    let lo1 := if lead = 0xF0 then 0x90 else 0x80
    let hi1 := if lead = 0xF4 then 0x8F else 0xBF
    if 0xF0 ≤ lead ∧ lead ≤ 0xF4 ∧ lo1 ≤ c1 ∧ c1 ≤ hi1 ∧ 0x80 ≤ c2 ∧ c2 ≤ 0xBF ∧
        0x80 ≤ c3 ∧ c3 ≤ 0xBF then
      some ((lead - 0xF0) * 0x40000 + (c1 - 0x80) * 0x1000 + (c2 - 0x80) * 0x40 +
        (c3 - 0x80))
    else none
  | _ => none

/-- Strict UTF-8 decoding of a byte list to characters
(`none` models a raised `UnicodeDecodeError`). -/
def utf8DecodeAux : List Nat → Option (List Char)
  | [] => some []
  | b :: rest =>
    if b < 0x80 then (utf8DecodeAux rest).map (Char.ofNat b :: ·)
    else if b ≤ 0xDF then
      match rest with
      | c1 :: rest2 =>
        match utf8Cont b [c1] with
        | none => none
        | some cp => (utf8DecodeAux rest2).map (Char.ofNat cp :: ·)
      | [] => none
    else if b ≤ 0xEF then
      match rest with
      | c1 :: c2 :: rest2 =>
        match utf8Cont b [c1, c2] with
        | none => none
        | some cp => (utf8DecodeAux rest2).map (Char.ofNat cp :: ·)
      | _ => none
    else
      match rest with
      | c1 :: c2 :: c3 :: rest2 =>
        match utf8Cont b [c1, c2, c3] with
        | none => none
        | some cp => (utf8DecodeAux rest2).map (Char.ofNat cp :: ·)
      | _ => none

/-- `bytes.decode("utf-8")`. -/
def utf8Decode (bs : List Nat) : Option String :=
  (utf8DecodeAux bs).map String.mk

/-- The decode-with-binary-fallback step of `get_pr_changes`: a text body is
passed through (strings have no `decode` attribute), a byte body is decoded
as UTF-8, substituting `"[Binary content - {len} bytes]"` on decode failure. -/
def decodeContent : Content → String
  | .text s => s
  | .bytes bs =>
    match utf8Decode bs with
    | some s => s
    | none => "[Binary content - " ++ toString bs.length ++ " bytes]"

/-- Python `str.lower()` (the change types involved are ASCII). -/
def lowerPy (s : String) : String :=
  String.mk (s.data.map Char.toLower)

/-- Python `str.capitalize()`: first character upper-cased, rest lower-cased. -/
def capitalizePy (s : String) : String :=
  match s.data with
  | [] => ""
  | c :: cs => String.mk (c.toUpper :: cs.map Char.toLower)

/-- Python `path.lstrip("/")`: strip all leading slashes. -/
def lstripSlash (s : String) : String :=
  String.mk (s.data.dropWhile (· = '/'))

/-- The extension denylist applied by the aggregator:
`file_path.endswith((".lock", ".pyc", ".svg", ".ico", ".woff", ".ttf"))`. -/
def isDenylisted (path : String) : Bool :=
  [".lock", ".pyc", ".svg", ".ico", ".woff", ".ttf"].any fun ext =>
    ext.data.isSuffixOf path.data

/-- `change_counts[change_type] = change_counts.get(change_type, 0) + 1` on an
insertion-ordered dictionary. -/
def dictIncr (m : List (String × Nat)) (key : String) : List (String × Nat) :=
  if m.any (·.1 = key) then
    m.map fun p => if p.1 = key then (p.1, p.2 + 1) else p
  else m ++ [(key, 1)]

/-- The change-count recomputation loop of `get_pr_changes`:
count surviving entries per capitalized change type. -/
def changeCountsOf (changes : List Change) : List (String × Nat) :=
  changes.foldl (fun m c => dictIncr m (capitalizePy c.changeType)) []

/-- `sum(counts.values())`. -/
def sumValues (m : List (String × Nat)) : Nat :=
  m.foldl (fun a p => a + p.2) 0

/-- Dictionary lookup with default 0 (used only to state properties of the
recomputed counts). -/
def countsLookup (m : List (String × Nat)) (key : String) : Nat :=
  match m.find? (·.1 = key) with
  | some p => p.2
  | none => 0

/-- One per-file result of the aggregator: `path` and `change_type` always,
`diff` or `content_error` depending on the fetch outcome. -/
structure FileInfo where
  path : String
  change_type : String
  diff : Option String := none
  content_error : Option String := none
  deriving DecidableEq, Repr

/-- The content-fetch capability: branch name and slash-stripped path to a
body, with `Except.error` standing for a raised exception carrying `str(e)`. -/
abbrev Fetch := String → String → Except String Content

/-- `for i, line in enumerate(file_lines, 1): emit f"{i:4d} +{line}"`. -/
def addDiffLines : Nat → List String → List String
  | _, [] => []
  | i, line :: rest => (pad4 i ++ " +" ++ line) :: addDiffLines (i + 1) rest

/-- The add-only annotator for `add` changes: an `@@ -0,0 +1,{n} @@` header
followed by each line prefixed with its 1-based number and `+`. -/
def addDiff (content : String) : String :=
  let fileLines := splitlines content
  String.intercalate "\n"
    (("@@ -0,0 +1," ++ toString fileLines.length ++ " @@") ::
      addDiffLines 1 fileLines)

/-- The per-file body of the aggregation loop: for an `edit` change fetch the
current version from the source branch, then the previous version from the
target branch (a raise in either is captured into `content_error`), decode
both and diff them; for an `add` change fetch and decode only the source
version and render the insert-only listing; other change types carry only
path and change type.  (The `is_package_file` computation of the source binds
a local that is never read afterwards, so it is omitted.) -/
def fileEntry (fetch : Fetch) (sourceBranch targetBranch : String)
    (c : Change) : FileInfo :=
  let filePath := c.item.path
  let changeType := lowerPy c.changeType
  if changeType = "edit" then
    match fetch sourceBranch (lstripSlash filePath) with
    | .error e => { path := filePath, change_type := changeType, content_error := some e }
    | .ok currentContent =>
      match fetch targetBranch (lstripSlash filePath) with
      | .error e => { path := filePath, change_type := changeType, content_error := some e }
      | .ok previousContent =>
        { path := filePath, change_type := changeType,
          diff := some (generate_git_style_diff
            (decodeContent previousContent) (decodeContent currentContent)) }
  else if changeType = "add" then
    match fetch sourceBranch (lstripSlash filePath) with
    | .error e => { path := filePath, change_type := changeType, content_error := some e }
    | .ok content =>
      { path := filePath, change_type := changeType,
        diff := some (addDiff (decodeContent content)) }
  else
    { path := filePath, change_type := changeType }

/-- The aggregation loop over the (already folder-filtered) change list with
the running `file_count`: the loop breaks once `file_count >= max_files`,
skips folder entries (defensive double-check) and denylisted extensions
without counting them, and otherwise appends one `FileInfo` and increments
the counter. -/
def processChanges (fetch : Fetch) (sourceBranch targetBranch : String)
    (maxFiles : Nat) : List Change → Nat → List FileInfo
  | [], _ => []
  | c :: rest, fileCount =>
    if maxFiles ≤ fileCount then []
    else if c.item.isFolder then
      processChanges fetch sourceBranch targetBranch maxFiles rest fileCount
    else if isDenylisted c.item.path then
      processChanges fetch sourceBranch targetBranch maxFiles rest fileCount
    else
      fileEntry fetch sourceBranch targetBranch c ::
        processChanges fetch sourceBranch targetBranch maxFiles rest (fileCount + 1)

/-- The summary part of the aggregation result. -/
structure PRSummary where
  total_files_changed : Nat
  change_types : List (String × Nat)
  note : Option String := none
  deriving DecidableEq, Repr

/-- The aggregator's result: either the batch-fatal `{"error": str(e)}`
dictionary (no other key) or the assembled summary and file list. -/
inductive PRResult where
  | error (msg : String)
  | ok (summary : PRSummary) (files : List FileInfo)
  deriving DecidableEq, Repr

/-- The non-folder entries surviving the aggregator's folder filter. -/
def filteredChanges (rawDiff : RawDiff) : List Change :=
  rawDiff.changes.filter fun c => !c.item.isFolder

/-- The `files` list assembled by the aggregator for an `ok` branch diff. -/
def prFiles (fetch : Fetch) (sourceBranch targetBranch : String)
    (maxFiles : Nat) (rawDiff : RawDiff) : List FileInfo :=
  processChanges fetch sourceBranch targetBranch maxFiles
    (filteredChanges rawDiff) 0

/-- The truncation note: added when the final `file_count` reached
`max_files` and the filtered change list is longer than `max_files`
(`f"Only showing {max_files} of {len(changes)} changed files."`). -/
def prNote (fetch : Fetch) (sourceBranch targetBranch : String)
    (maxFiles : Nat) (rawDiff : RawDiff) : Option String :=
  if maxFiles ≤ (prFiles fetch sourceBranch targetBranch maxFiles rawDiff).length ∧
      maxFiles < (filteredChanges rawDiff).length then
    some ("Only showing " ++ toString maxFiles ++ " of " ++
      toString (filteredChanges rawDiff).length ++ " changed files.")
  else none

/-- `get_pr_changes(repository_id, source_branch, target_branch, max_files)`:
the branch-diff capability result (`client.git.get_branch_diff(repository_id,
target_branch, source_branch)`) is passed as `diffRes` and the content-fetch
capability as `fetch`.  A raised initial fetch (`diffRes = .error e`) makes
the whole call return `{"error": str(e)}`; otherwise folder entries are
dropped, `changeCounts` is recomputed from the survivors, the summary totals
are taken from the recomputed counts, and the file loop runs with its
`max_files` cap and truncation note. -/
def get_pr_changes (diffRes : Except String RawDiff) (fetch : Fetch)
    (sourceBranch targetBranch : String) (maxFiles : Nat := 20) : PRResult :=
  match diffRes with
  | .error e => .error e
  | .ok rawDiff =>
    .ok
      { total_files_changed := sumValues (changeCountsOf (filteredChanges rawDiff)),
        change_types := changeCountsOf (filteredChanges rawDiff),
        note := prNote fetch sourceBranch targetBranch maxFiles rawDiff }
      (prFiles fetch sourceBranch targetBranch maxFiles rawDiff)

/-! ## Claim-support definitions -/

/-- The old-side line number carried by a rendered diff line, if any. -/
def entryOldNo : DiffEntry → Option Nat
  | .equal o _ _ => some o
  | .removed o _ => some o
  | .added _ _ => none

/-- The new-side line number carried by a rendered diff line, if any. -/
def entryNewNo : DiffEntry → Option Nat
  | .equal _ n _ => some n
  | .removed _ _ => none
  | .added n _ => some n

/-- The old-side line numbers of a rendered diff, in rendering order. -/
def oldNums (entries : List DiffEntry) : List Nat :=
  entries.filterMap entryOldNo

/-- The new-side line numbers of a rendered diff, in rendering order. -/
def newNums (entries : List DiffEntry) : List Nat :=
  entries.filterMap entryNewNo

/-- Whether a rendered diff line is an unchanged line (no `+`/`-` marker). -/
def isEqualEntry : DiffEntry → Bool
  | .equal _ _ _ => true
  | _ => false

/-- Whether an opcode list is a valid walk over both sequences from position
`(i, j)` to `(la, lb)`: each opcode starts where the previous one ended,
`replace` consumes a nonempty range on both sides, `delete` only on the old
side, `insert` only on the new side, and `equal` consumes equal-length
nonempty ranges; the walk ends exactly at `(la, lb)`. -/
def opcodesWalkB : Nat → Nat → Nat → Nat → List Opcode → Bool
  | i, j, la, lb, [] => i = la ∧ j = lb
  | i, j, la, lb, op :: rest =>
    decide (op.i1 = i) && decide (op.j1 = j) &&
    (match op.tag with
     | .replace => decide (i < op.i2) && decide (j < op.j2)
     | .delete => decide (i < op.i2) && decide (j = op.j2)
     | .insert => decide (i = op.i2) && decide (j < op.j2)
     | .equal => decide (i < op.i2) && decide (op.i2 - op.i1 = op.j2 - op.j1)) &&
    opcodesWalkB op.i2 op.j2 la lb rest

/-- Total number of line edit operations (removed plus inserted lines)
described by an opcode list. -/
def editOps : List Opcode → Nat
  | [] => 0
  | op :: rest =>
    (match op.tag with
     | .equal => 0
     | .delete => op.i2 - op.i1
     | .insert => op.j2 - op.j1
     | .replace => (op.i2 - op.i1) + (op.j2 - op.j1)) + editOps rest

/-- Modelled from the spec: fuel-counted worker for the longest-common-
subsequence length (each step consumes at least one element, so fuel equal
to the total length suffices). -/
def specLcsLenAux : Nat → List String → List String → Nat
  | 0, _, _ => 0
  | _ + 1, [], _ => 0
  | _ + 1, _ :: _, [] => 0
  | fuel + 1, a :: as, b :: bs =>
    if a = b then specLcsLenAux fuel as bs + 1
    else max (specLcsLenAux fuel (a :: as) bs) (specLcsLenAux fuel as (b :: bs))

/-- Modelled from the spec: the length of a longest common subsequence of two
line sequences ("standard LCS-based sequence alignment"); an alignment
minimizes total edit operations exactly when it matches this many lines. -/
def specLcsLen (a b : List String) : Nat :=
  specLcsLenAux (a.length + b.length) a b

/-- Validity of a matching-block list relative to a window: blocks are
nonempty, in order, non-overlapping, and contained in the window
(used only in proofs). -/
def ValidChain : Nat → Nat → Nat → Nat → List Block → Prop
  | _, _, _, _, [] => True
  | alo, blo, ahi, bhi, (i, j, k) :: rest =>
    alo ≤ i ∧ blo ≤ j ∧ 1 ≤ k ∧ i + k ≤ ahi ∧ j + k ≤ bhi ∧
      ValidChain (i + k) (j + k) ahi bhi rest

/-- Window bounds of a candidate best block (used only in proofs). -/
def BestBnd (alo ahi blo bhi : Nat) (bl : Block) : Prop :=
  alo ≤ bl.1 ∧ blo ≤ bl.2.1 ∧ bl.1 + bl.2.2 ≤ ahi ∧ bl.2.1 + bl.2.2 ≤ bhi

/-- For the identical-inputs analysis (top-level window `[0, n) × [0, n)` of
`SequenceMatcher(None, l, l)`): length of the diagonal run of matchable
(non-popular, in-range) positions ending at `j`. -/
def diagRun (l : List String) : Nat → Nat
  | 0 => if 0 ∈ b2jGet l (l.getD 0 "") then 1 else 0
  | j + 1 => if (j + 1) ∈ b2jGet l (l.getD (j + 1) "") then diagRun l j + 1 else 0

/-- The value stored by the `find_longest_match` inner loop at row `i`,
column `j` when matching `l` against itself over the full window: the length
of the common run ending at `(i, j)` (zero when `(i, j)` is not a matchable
pair). -/
def runR (l : List String) : Nat → Nat → Nat
  | 0, j => if j ∈ b2jGet l (l.getD 0 "") then 1 else 0
  | i + 1, 0 => if 0 ∈ b2jGet l (l.getD (i + 1) "") then 1 else 0
  | i + 1, j + 1 =>
    if (j + 1) ∈ b2jGet l (l.getD (i + 1) "") then runR l i j + 1 else 0

/-- Maximum diagonal run ending strictly below `m` (used only in proofs). -/
def maxDiagUpTo (l : List String) : Nat → Nat
  | 0 => 0
  | m + 1 => max (maxDiagUpTo l m) (diagRun l m)

/-- The chain value `k = j2len.get(j-1, 0) + 1` computed by the inner loop of
`find_longest_match` (used only in proofs). -/
def kVal (j2len : Nat → Nat) (j : Nat) : Nat :=
  (if j = 0 then 0 else j2len (j - 1)) + 1

/-- The `j2len` row held before processing row `i` when matching `l` against
itself over the full window: all zeros before row 0, afterwards the previous
row's run lengths (used only in proofs). -/
def rowFun (l : List String) : Nat → Nat → Nat
  | 0, _ => 0
  | i + 1, j => runR l i j

/-! ## Aggregator lemmas -/

theorem fileEntry_path (fetch : Fetch) (sourceBranch targetBranch : String)
    (c : Change) : (fileEntry fetch sourceBranch targetBranch c).path = c.item.path := by
  unfold fileEntry
  dsimp only
  split
  · split <;> [rfl; split <;> rfl]
  · split
    · split <;> rfl
    · rfl

theorem fileEntry_change_type (fetch : Fetch) (sourceBranch targetBranch : String)
    (c : Change) :
    (fileEntry fetch sourceBranch targetBranch c).change_type = lowerPy c.changeType := by
  unfold fileEntry
  dsimp only
  split
  · split <;> [rfl; split <;> rfl]
  · split
    · split <;> rfl
    · rfl

theorem processChanges_mem {fetch : Fetch} {sourceBranch targetBranch : String}
    {maxFiles : Nat} {f : FileInfo} :
    ∀ {cs : List Change} {count : Nat},
      f ∈ processChanges fetch sourceBranch targetBranch maxFiles cs count →
      ∃ c ∈ cs, c.item.isFolder = false ∧
        f = fileEntry fetch sourceBranch targetBranch c
  | [], count => by simp [processChanges]
  | c :: rest, count => by
    intro hf
    unfold processChanges at hf
    by_cases hcap : maxFiles ≤ count
    · simp [hcap] at hf
    · rw [if_neg hcap] at hf
      by_cases hfold : c.item.isFolder
      · rw [if_pos hfold] at hf
        obtain ⟨c', hc', hnf, he⟩ := processChanges_mem hf
        exact ⟨c', List.mem_cons_of_mem _ hc', hnf, he⟩
      · rw [if_neg hfold] at hf
        by_cases hden : isDenylisted c.item.path
        · rw [if_pos hden] at hf
          obtain ⟨c', hc', hnf, he⟩ := processChanges_mem hf
          exact ⟨c', List.mem_cons_of_mem _ hc', hnf, he⟩
        · rw [if_neg hden] at hf
          rcases List.mem_cons.mp hf with he | hf'
          · exact ⟨c, List.mem_cons_self _ _, Bool.not_eq_true _ ▸ hfold, he⟩
          · obtain ⟨c', hc', hnf, he⟩ := processChanges_mem hf'
            exact ⟨c', List.mem_cons_of_mem _ hc', hnf, he⟩

theorem processChanges_length (fetch : Fetch) (sourceBranch targetBranch : String)
    (maxFiles : Nat) :
    ∀ (cs : List Change) (count : Nat),
      (processChanges fetch sourceBranch targetBranch maxFiles cs count).length ≤
        maxFiles - count
  | [], count => by simp [processChanges]
  | c :: rest, count => by
    unfold processChanges
    by_cases hcap : maxFiles ≤ count
    · simp [hcap]
    · rw [if_neg hcap]
      by_cases hfold : c.item.isFolder
      · rw [if_pos hfold]
        exact processChanges_length fetch sourceBranch targetBranch maxFiles rest count
      · rw [if_neg hfold]
        by_cases hden : isDenylisted c.item.path
        · rw [if_pos hden]
          exact processChanges_length fetch sourceBranch targetBranch maxFiles rest count
        · rw [if_neg hden]
          have h := processChanges_length fetch sourceBranch targetBranch maxFiles rest
            (count + 1)
          simp only [List.length_cons]
          omega

theorem sumValues_go (m : List (String × Nat)) :
    ∀ n : Nat, m.foldl (fun a p => a + p.2) n = n + (m.map (·.2)).sum := by
  induction m with
  | nil => intro n; simp
  | cons p rest ih => intro n; simp [List.foldl_cons, ih, Nat.add_assoc]

theorem map_keep_of_no_key {m : List (String × Nat)} {key : String}
    (h : ∀ p ∈ m, p.1 ≠ key) :
    (m.map fun p => if p.1 = key then (p.1, p.2 + 1) else p) = m := by
  induction m with
  | nil => rfl
  | cons p rest ih =>
    simp only [List.map_cons]
    rw [if_neg (h p (List.mem_cons_self _ _)), ih fun q hq => h q (List.mem_cons_of_mem _ hq)]

theorem keys_nodup_cons {q : String × Nat} {rest : List (String × Nat)}
    (h : (((q :: rest)).map Prod.fst).Nodup) :
    (∀ r ∈ rest, r.1 ≠ q.1) ∧ (rest.map Prod.fst).Nodup := by
  rw [List.map_cons] at h
  have h' := List.nodup_cons.mp h
  exact ⟨fun r hr hrk => h'.1 (hrk ▸ List.mem_map_of_mem Prod.fst hr), h'.2⟩

theorem keysNodup_dictIncr {m : List (String × Nat)} {key : String}
    (h : (m.map Prod.fst).Nodup) : ((dictIncr m key).map Prod.fst).Nodup := by
  unfold dictIncr
  split
  · have heq : ((m.map fun p => if p.1 = key then (p.1, p.2 + 1) else p).map Prod.fst) =
        m.map Prod.fst := by
      rw [List.map_map]
      apply List.map_congr_left
      intro p _
      by_cases hp : p.1 = key <;> simp [hp]
    rw [heq]
    exact h
  · next hany =>
    rw [List.map_append]
    simp only [List.map_cons, List.map_nil]
    rw [List.nodup_append]
    refine ⟨h, List.nodup_singleton _, ?_⟩
    intro x hx
    simp only [List.mem_singleton]
    intro hk
    subst hk
    obtain ⟨p, hp, hpk⟩ := List.mem_map.mp hx
    exact hany (List.any_eq_true.mpr ⟨p, hp, decide_eq_true hpk⟩)

theorem sum_map_incr {key : String} :
    ∀ {m : List (String × Nat)}, (m.map Prod.fst).Nodup →
      m.any (·.1 = key) = true →
      ((m.map fun p => if p.1 = key then (p.1, p.2 + 1) else p).map (·.2)).sum
        = (m.map (·.2)).sum + 1
  | [], _, hany => by simp at hany
  | q :: rest, h, hany => by
    have hd := keys_nodup_cons h
    by_cases hq : q.1 = key
    · have hrest : ∀ r ∈ rest, r.1 ≠ key := fun r hr => hq ▸ hd.1 r hr
      simp only [List.map_cons, List.sum_cons, if_pos hq]
      rw [map_keep_of_no_key hrest]
      omega
    · have hany' : rest.any (·.1 = key) = true := by
        rcases List.any_eq_true.mp hany with ⟨p, hp, hpk⟩
        rcases List.mem_cons.mp hp with rfl | hp'
        · exact absurd (of_decide_eq_true hpk) hq
        · exact List.any_eq_true.mpr ⟨p, hp', hpk⟩
      simp only [List.map_cons, List.sum_cons, if_neg hq]
      rw [sum_map_incr hd.2 hany']
      omega

theorem sumValues_dictIncr {m : List (String × Nat)} {key : String}
    (h : (m.map Prod.fst).Nodup) :
    sumValues (dictIncr m key) = sumValues m + 1 := by
  unfold dictIncr
  split
  · next hany =>
    unfold sumValues
    rw [sumValues_go, sumValues_go, sum_map_incr h hany]
    omega
  · unfold sumValues
    rw [sumValues_go, sumValues_go]
    simp

theorem countsLookup_nil (key : String) : countsLookup [] key = 0 := rfl

theorem countsLookup_cons (q : String × Nat) (m : List (String × Nat)) (key : String) :
    countsLookup (q :: m) key =
      if q.1 = key then q.2 else countsLookup m key := by
  unfold countsLookup
  rw [List.find?_cons]
  by_cases hq : q.1 = key
  · simp [hq]
  · simp [hq]

theorem countsLookup_append_single {key k : String} :
    ∀ {m : List (String × Nat)}, (∀ p ∈ m, p.1 ≠ k) →
      countsLookup (m ++ [(k, 1)]) key
        = countsLookup m key + (if key = k then 1 else 0)
  | [], _ => by
    rw [List.nil_append, countsLookup_nil, countsLookup_cons, countsLookup_nil]
    by_cases hk : key = k
    · rw [if_pos hk.symm, if_pos hk]
    · rw [if_neg fun h => hk h.symm, if_neg hk]
  | q :: rest, h => by
    rw [List.cons_append, countsLookup_cons, countsLookup_cons]
    by_cases hq : q.1 = key
    · rw [if_pos hq, if_pos hq]
      have : ¬ key = k := fun hc => h q (List.mem_cons_self _ _) (hq.trans hc)
      simp [this]
    · rw [if_neg hq, if_neg hq]
      exact countsLookup_append_single fun p hp => h p (List.mem_cons_of_mem _ hp)

theorem countsLookup_map_incr {key k : String} :
    ∀ {m : List (String × Nat)}, (m.map Prod.fst).Nodup →
      m.any (·.1 = k) = true →
      countsLookup (m.map fun p => if p.1 = k then (p.1, p.2 + 1) else p) key
        = countsLookup m key + (if key = k then 1 else 0)
  | [], _, hany => by simp at hany
  | q :: rest, h, hany => by
    have hd := keys_nodup_cons h
    simp only [List.map_cons]
    rw [countsLookup_cons, countsLookup_cons]
    by_cases hq : q.1 = k
    · have hrest : ∀ r ∈ rest, r.1 ≠ k := fun r hr => hq ▸ hd.1 r hr
      rw [if_pos hq, map_keep_of_no_key hrest]
      by_cases hqkey : q.1 = key
      · have hfst : ((q.1, q.2 + 1) : String × Nat).1 = key := hqkey
        rw [if_pos hfst, if_pos hqkey, if_pos (hqkey ▸ hq : key = k)]
      · have hfst : ¬ ((q.1, q.2 + 1) : String × Nat).1 = key := hqkey
        rw [if_neg hfst, if_neg hqkey]
        have hkk : ¬ key = k := fun hc => hqkey ((hc ▸ hq : q.1 = key))
        rw [if_neg hkk]
        omega
    · have hany' : rest.any (·.1 = k) = true := by
        rcases List.any_eq_true.mp hany with ⟨p, hp, hpk⟩
        rcases List.mem_cons.mp hp with rfl | hp'
        · exact absurd (of_decide_eq_true hpk) hq
        · exact List.any_eq_true.mpr ⟨p, hp', hpk⟩
      rw [if_neg hq]
      by_cases hqkey : q.1 = key
      · rw [if_pos hqkey, if_pos hqkey]
        have hkk : ¬ key = k := fun hc => hq (hqkey.trans hc)
        rw [if_neg hkk]
        omega
      · rw [if_neg hqkey, if_neg hqkey]
        exact countsLookup_map_incr hd.2 hany'

theorem countsLookup_dictIncr {m : List (String × Nat)} {k key : String}
    (h : (m.map Prod.fst).Nodup) :
    countsLookup (dictIncr m k) key =
      countsLookup m key + (if key = k then 1 else 0) := by
  unfold dictIncr
  split
  · next hany => exact countsLookup_map_incr h hany
  · next hany =>
    refine countsLookup_append_single fun p hp hpk => ?_
    exact hany (List.any_eq_true.mpr ⟨p, hp, decide_eq_true hpk⟩)

theorem changeCounts_go :
    ∀ (cs : List Change) (m : List (String × Nat)), (m.map Prod.fst).Nodup →
      (((cs.foldl (fun m c => dictIncr m (capitalizePy c.changeType)) m).map
          Prod.fst).Nodup ∧
        sumValues (cs.foldl (fun m c => dictIncr m (capitalizePy c.changeType)) m)
          = sumValues m + cs.length) ∧
      ∀ key, countsLookup
          (cs.foldl (fun m c => dictIncr m (capitalizePy c.changeType)) m) key
        = countsLookup m key +
            cs.countP (fun c => capitalizePy c.changeType = key)
  | [], m, h => by simp [h]
  | c :: rest, m, h => by
    have hstep := changeCounts_go rest (dictIncr m (capitalizePy c.changeType))
      (keysNodup_dictIncr h)
    simp only [List.foldl_cons]
    refine ⟨⟨hstep.1.1, ?_⟩, ?_⟩
    · rw [hstep.1.2, sumValues_dictIncr h, List.length_cons]
      omega
    · intro key
      rw [hstep.2 key, countsLookup_dictIncr h, List.countP_cons]
      by_cases hck : capitalizePy c.changeType = key
      · rw [if_pos hck.symm, if_pos (decide_eq_true hck)]
        omega
      · rw [if_neg fun hc => hck hc.symm,
          if_neg fun hd => hck (of_decide_eq_true hd)]
        omega

theorem sumValues_changeCounts (cs : List Change) :
    sumValues (changeCountsOf cs) = cs.length := by
  have h := (changeCounts_go cs [] (by simp)).1.2
  unfold changeCountsOf
  rw [h]
  simp [sumValues]

theorem countsLookup_changeCounts (cs : List Change) (key : String) :
    countsLookup (changeCountsOf cs) key =
      cs.countP (fun c => capitalizePy c.changeType = key) := by
  have h := (changeCounts_go cs [] (by simp)).2 key
  unfold changeCountsOf
  rw [h, countsLookup_nil]
  omega

/-! ## Aggregator claims -/

/-- C4: when the initial branch-diff fetch raises, `get_pr_changes` returns
exactly the error result carrying the message (the `error` constructor holds
nothing but the message, in particular no `files`), and in every case the
aggregator returns a structured result — an `error` or an `ok` — so no
exception escapes. -/
theorem claim4_initial_fetch_error_and_no_escape :
    (∀ (msg : String) (fetch : Fetch) (sourceBranch targetBranch : String)
        (maxFiles : Nat),
      get_pr_changes (.error msg) fetch sourceBranch targetBranch maxFiles
        = .error msg) ∧
    ∀ (diffRes : Except String RawDiff) (fetch : Fetch)
        (sourceBranch targetBranch : String) (maxFiles : Nat),
      (∃ msg, get_pr_changes diffRes fetch sourceBranch targetBranch maxFiles
          = .error msg) ∨
      ∃ summary files,
        get_pr_changes diffRes fetch sourceBranch targetBranch maxFiles
          = .ok summary files := by
  refine ⟨fun _ _ _ _ _ => rfl, fun diffRes fetch sb tb mf => ?_⟩
  cases diffRes with
  | error e => exact .inl ⟨e, rfl⟩
  | ok rd => exact .inr ⟨_, _, rfl⟩

/-- C5: when the per-file content fetch for an accepted `edit` file raises
(in either of the two fetches), that file's entry still appears in the file
list with `content_error` set to the message and no `diff`, and the loop
continues over the remaining changes exactly as before, with the counter
advanced by one. -/
theorem claim5_per_file_error_isolated
    (fetch : Fetch) (sourceBranch targetBranch : String) (c : Change)
    (msg : String)
    (hfolder : c.item.isFolder = false)
    (hden : isDenylisted c.item.path = false)
    (hedit : lowerPy c.changeType = "edit")
    (hfail : fetch sourceBranch (lstripSlash c.item.path) = .error msg ∨
      ∃ cur, fetch sourceBranch (lstripSlash c.item.path) = .ok cur ∧
        fetch targetBranch (lstripSlash c.item.path) = .error msg) :
    fileEntry fetch sourceBranch targetBranch c =
      { path := c.item.path, change_type := "edit", diff := none,
        content_error := some msg } ∧
    ∀ (maxFiles : Nat) (rest : List Change) (count : Nat), count < maxFiles →
      processChanges fetch sourceBranch targetBranch maxFiles (c :: rest) count =
        { path := c.item.path, change_type := "edit", diff := none,
            content_error := some msg } ::
          processChanges fetch sourceBranch targetBranch maxFiles rest (count + 1) := by
  have hentry : fileEntry fetch sourceBranch targetBranch c =
      { path := c.item.path, change_type := "edit", diff := none,
        content_error := some msg } := by
    unfold fileEntry
    rw [hedit]
    rw [if_pos rfl]
    rcases hfail with hf | ⟨cur, hok, hf2⟩
    · rw [hf]
    · rw [hok, hf2]
  refine ⟨hentry, fun maxFiles rest count hcount => ?_⟩
  unfold processChanges
  rw [if_neg (Nat.not_le.mpr hcount), if_neg (by simp [hfolder]),
    if_neg (by simp [hden]), hentry]
  cases rest <;> rfl

/-- C5 witness: a two-change list where the first file's fetch raises:
its entry carries the error and the second file is still processed. -/
theorem claim5_witness :
    fileEntry (fun _ _ => .error "boom") "src" "tgt"
        ⟨"edit", ⟨"/a.py", false⟩⟩ =
      { path := "/a.py", change_type := "edit", diff := none,
        content_error := some "boom" } ∧
    processChanges (fun _ _ => .error "boom") "src" "tgt" 2
        [⟨"edit", ⟨"/a.py", false⟩⟩, ⟨"delete", ⟨"/b.py", false⟩⟩] 0 =
      [{ path := "/a.py", change_type := "edit", diff := none,
          content_error := some "boom" },
       { path := "/b.py", change_type := "delete", diff := none,
          content_error := none }] := by
  have h := claim5_per_file_error_isolated (fun _ _ => .error "boom") "src" "tgt"
    ⟨"edit", ⟨"/a.py", false⟩⟩ "boom" rfl (by decide) (by decide) (.inl rfl)
  refine ⟨h.1, ?_⟩
  rw [h.2 2 [⟨"delete", ⟨"/b.py", false⟩⟩] 0 (by decide)]
  decide

/-- C6: the aggregator drops folder entries, recomputes `change_types` from
the surviving non-folder entries (total equals their number; the per-key
count is the number of surviving entries with that capitalized change type;
the upstream-provided counts have no influence), no folder entry ever
appears in the file list, and on a concrete raw diff with 3 folder entries
and 2 file entries the reported total is 2. -/
theorem claim6_folder_filter_recount :
    (∀ (rawDiff : RawDiff) (fetch : Fetch) (sourceBranch targetBranch : String)
        (maxFiles : Nat),
      get_pr_changes (.ok rawDiff) fetch sourceBranch targetBranch maxFiles =
        .ok
          { total_files_changed :=
              sumValues (changeCountsOf (filteredChanges rawDiff)),
            change_types := changeCountsOf (filteredChanges rawDiff),
            note := prNote fetch sourceBranch targetBranch maxFiles rawDiff }
          (prFiles fetch sourceBranch targetBranch maxFiles rawDiff)) ∧
    (∀ rawDiff : RawDiff,
      sumValues (changeCountsOf (filteredChanges rawDiff)) =
        (filteredChanges rawDiff).length) ∧
    (∀ (rawDiff : RawDiff) (key : String),
      countsLookup (changeCountsOf (filteredChanges rawDiff)) key =
        (filteredChanges rawDiff).countP
          fun c => capitalizePy c.changeType = key) ∧
    (∀ (rawDiff : RawDiff) (upstreamCounts : List (String × Nat)) (fetch : Fetch)
        (sourceBranch targetBranch : String) (maxFiles : Nat),
      get_pr_changes (.ok ⟨rawDiff.changes, upstreamCounts⟩) fetch sourceBranch
          targetBranch maxFiles =
        get_pr_changes (.ok rawDiff) fetch sourceBranch targetBranch maxFiles) ∧
    (∀ (fetch : Fetch) (sourceBranch targetBranch : String) (maxFiles : Nat)
        (rawDiff : RawDiff) (f : FileInfo),
      f ∈ prFiles fetch sourceBranch targetBranch maxFiles rawDiff →
      ∃ c ∈ rawDiff.changes, c.item.isFolder = false ∧ f.path = c.item.path) ∧
    get_pr_changes
        (.ok ⟨[⟨"add", ⟨"/d1", true⟩⟩, ⟨"edit", ⟨"/f1.py", false⟩⟩,
          ⟨"add", ⟨"/d2", true⟩⟩, ⟨"delete", ⟨"/f2.py", false⟩⟩,
          ⟨"add", ⟨"/d3", true⟩⟩], [("Add", 3), ("Edit", 1), ("Delete", 1)]⟩)
        (fun _ _ => .error "e") "src" "tgt" 20 =
      .ok { total_files_changed := 2,
            change_types := [("Edit", 1), ("Delete", 1)], note := none }
        [{ path := "/f1.py", change_type := "edit", diff := none,
            content_error := some "e" },
         { path := "/f2.py", change_type := "delete", diff := none,
            content_error := none }] := by
  refine ⟨fun _ _ _ _ _ => rfl,
    fun rd => sumValues_changeCounts _,
    fun rd key => countsLookup_changeCounts _ key,
    fun _ _ _ _ _ _ => rfl,
    fun fetch sb tb mf rd f hf => ?_, by decide⟩
  obtain ⟨c, hc, hnf, he⟩ := processChanges_mem hf
  refine ⟨c, List.mem_of_mem_filter hc, hnf, ?_⟩
  rw [he, fileEntry_path]

/-- C6 witness: instantiating the no-folder-in-files part on a concrete
one-change diff. -/
theorem claim6_witness :
    ∃ c ∈ (⟨[⟨"delete", ⟨"/w.py", false⟩⟩], []⟩ : RawDiff).changes,
      c.item.isFolder = false ∧
      ({ path := "/w.py", change_type := "delete", diff := none,
          content_error := none } : FileInfo).path = c.item.path := by
  have h := claim6_folder_filter_recount.2.2.2.2.1
    (fun _ _ => .error "e") "src" "tgt" 20 ⟨[⟨"delete", ⟨"/w.py", false⟩⟩], []⟩
    { path := "/w.py", change_type := "delete", diff := none,
      content_error := none } (by decide)
  exact h

/-- C7: at most `max_files` entries are appended to the file list; skipped
folder or denylisted entries leave the list and the counter unchanged (so
they do not count against the cap); whenever the final counter reached
`max_files` while the filtered change list is longer, the truncation note is
present and reports both numbers; and concretely `max_files = 1` with 2
eligible files yields one entry and the note `"Only showing 1 of 2 changed
files."`, which mentions both `'1'` and `'2'`. -/
theorem claim7_max_files_cap_and_note :
    (∀ (fetch : Fetch) (sourceBranch targetBranch : String) (maxFiles : Nat)
        (rawDiff : RawDiff),
      (prFiles fetch sourceBranch targetBranch maxFiles rawDiff).length ≤
        maxFiles) ∧
    (∀ (fetch : Fetch) (sourceBranch targetBranch : String) (maxFiles : Nat)
        (c : Change) (cs : List Change) (count : Nat),
      c.item.isFolder = true ∨ isDenylisted c.item.path = true →
      processChanges fetch sourceBranch targetBranch maxFiles (c :: cs) count =
        if maxFiles ≤ count then []
        else processChanges fetch sourceBranch targetBranch maxFiles cs count) ∧
    (∀ (fetch : Fetch) (sourceBranch targetBranch : String) (maxFiles : Nat)
        (rawDiff : RawDiff),
      maxFiles ≤ (prFiles fetch sourceBranch targetBranch maxFiles rawDiff).length →
      maxFiles < (filteredChanges rawDiff).length →
      prNote fetch sourceBranch targetBranch maxFiles rawDiff =
        some ("Only showing " ++ toString maxFiles ++ " of " ++
          toString (filteredChanges rawDiff).length ++ " changed files.")) ∧
    get_pr_changes
        (.ok ⟨[⟨"edit", ⟨"/a.py", false⟩⟩, ⟨"edit", ⟨"/b.py", false⟩⟩], []⟩)
        (fun _ _ => .error "e") "src" "tgt" 1 =
      .ok { total_files_changed := 2, change_types := [("Edit", 2)],
            note := some "Only showing 1 of 2 changed files." }
        [{ path := "/a.py", change_type := "edit", diff := none,
            content_error := some "e" }] ∧
    ("Only showing 1 of 2 changed files.".data.contains '1' ∧
      "Only showing 1 of 2 changed files.".data.contains '2') := by
  refine ⟨fun fetch sb tb mf rd => ?_, fun fetch sb tb mf c cs count h => ?_,
    fun fetch sb tb mf rd h1 h2 => ?_, by decide, by decide⟩
  · have h := processChanges_length fetch sb tb mf (filteredChanges rd) 0
    unfold prFiles
    omega
  · unfold processChanges
    by_cases hcap : mf ≤ count
    · rw [if_pos hcap, if_pos hcap]
    · rw [if_neg hcap, if_neg hcap]
      rcases h with hfold | hden
      · rw [if_pos hfold]
        cases cs <;> rfl
      · by_cases hfold : c.item.isFolder
        · rw [if_pos hfold]
          cases cs <;> rfl
        · rw [if_neg hfold, if_pos hden]
          cases cs <;> rfl
  · unfold prNote
    rw [if_pos ⟨h1, h2⟩]

/-- C7 witness: the skip equation applied to a concrete folder entry and the
note condition applied to a concrete over-cap diff. -/
theorem claim7_witness :
    processChanges (fun _ _ => .error "e") "src" "tgt" 5
        [⟨"add", ⟨"/dir", true⟩⟩, ⟨"edit", ⟨"/a.py", false⟩⟩] 0 =
      processChanges (fun _ _ => .error "e") "src" "tgt" 5
        [⟨"edit", ⟨"/a.py", false⟩⟩] 0 ∧
    prNote (fun _ _ => .error "e") "src" "tgt" 1
        ⟨[⟨"edit", ⟨"/a.py", false⟩⟩, ⟨"edit", ⟨"/b.py", false⟩⟩], []⟩ =
      some "Only showing 1 of 2 changed files." := by
  constructor
  · rw [claim7_max_files_cap_and_note.2.1 (fun _ _ => .error "e") "src" "tgt" 5
      ⟨"add", ⟨"/dir", true⟩⟩ [⟨"edit", ⟨"/a.py", false⟩⟩] 0 (.inl rfl)]
    decide
  · rw [claim7_max_files_cap_and_note.2.2.1 (fun _ _ => .error "e") "src" "tgt" 1
      ⟨[⟨"edit", ⟨"/a.py", false⟩⟩, ⟨"edit", ⟨"/b.py", false⟩⟩], []⟩
      (by decide) (by decide)]
    decide

/-- C10: `total_files_changed` (and the recomputed counts) are taken over all
non-folder entries before the extension denylist and the `max_files` cap are
applied — the total equals the number of non-folder entries regardless of
`max_files` or the fetch outcomes — and on a concrete diff containing a
single non-folder `.lock` entry the total (1) strictly exceeds the number of
entries in `files` (0). -/
theorem claim10_counts_before_filters :
    (∀ (rawDiff : RawDiff) (fetch : Fetch) (sourceBranch targetBranch : String)
        (maxFiles : Nat),
      get_pr_changes (.ok rawDiff) fetch sourceBranch targetBranch maxFiles =
        .ok
          { total_files_changed := (filteredChanges rawDiff).length,
            change_types := changeCountsOf (filteredChanges rawDiff),
            note := prNote fetch sourceBranch targetBranch maxFiles rawDiff }
          (prFiles fetch sourceBranch targetBranch maxFiles rawDiff)) ∧
    get_pr_changes (.ok ⟨[⟨"edit", ⟨"/x.lock", false⟩⟩], []⟩)
        (fun _ _ => .error "e") "src" "tgt" 20 =
      .ok { total_files_changed := 1, change_types := [("Edit", 1)],
            note := none } [] := by
  refine ⟨fun rd fetch sb tb mf => ?_, by decide⟩
  show PRResult.ok
      { total_files_changed := sumValues (changeCountsOf (filteredChanges rd)),
        change_types := changeCountsOf (filteredChanges rd),
        note := prNote fetch sb tb mf rd } (prFiles fetch sb tb mf rd) = _
  rw [sumValues_changeCounts]

/-! ## Matching-block validity -/

theorem flmInnerStep_fn (j2len : Nat → Nat) (i : Nat)
    (st : (Nat → Nat) × Block) (j : Nat) :
    (flmInnerStep j2len i st j).1 =
      fun j' => if j' = j then kVal j2len j else st.1 j' := by
  unfold flmInnerStep kVal
  dsimp only
  split <;> split <;> rfl

theorem flmInnerStep_best (j2len : Nat → Nat) (i : Nat)
    (st : (Nat → Nat) × Block) (j : Nat) :
    (flmInnerStep j2len i st j).2 =
      if st.2.2.2 < kVal j2len j then
        (i + 1 - kVal j2len j, j + 1 - kVal j2len j, kVal j2len j)
      else st.2 := by
  unfold flmInnerStep kVal
  dsimp only
  split <;> split <;> rfl

theorem kVal_le_of_row {blo bound : Nat} {j2len : Nat → Nat}
    (hrow : ∀ j, j2len j ≤ j + 1 - blo ∧ j2len j ≤ bound) {j : Nat}
    (hj : blo ≤ j) : kVal j2len j ≤ j + 1 - blo ∧ kVal j2len j ≤ bound + 1 := by
  unfold kVal
  by_cases h0 : j = 0
  · subst h0
    rw [if_pos rfl]
    omega
  · rw [if_neg h0]
    have h1 := (hrow (j - 1)).1
    have h2 := (hrow (j - 1)).2
    omega

theorem flmInner_bounds {alo ahi blo bhi : Nat} (j2len : Nat → Nat) (i : Nat)
    (hrow : ∀ j, j2len j ≤ j + 1 - blo ∧ j2len j ≤ i - alo)
    (hi : alo ≤ i ∧ i < ahi) :
    ∀ (js : List Nat) (st : (Nat → Nat) × Block),
      (∀ j ∈ js, blo ≤ j ∧ j < bhi) →
      BestBnd alo ahi blo bhi st.2 →
      BestBnd alo ahi blo bhi ((js.foldl (flmInnerStep j2len i) st)).2
  | [], _, _, hb => hb
  | j :: rest, st, hjs, hb => by
    have hj := hjs j (List.mem_cons_self _ _)
    rw [List.foldl_cons]
    refine flmInner_bounds j2len i hrow hi rest _
      (fun j' hj' => hjs j' (List.mem_cons_of_mem _ hj')) ?_
    rw [flmInnerStep_best]
    have hk := kVal_le_of_row hrow hj.1
    split
    · unfold BestBnd
      dsimp only
      have h1 := hj.1
      have h2 := hj.2
      have h3 := hi.1
      have h4 := hi.2
      omega
    · exact hb

theorem flmInner_row_bound {alo blo : Nat} (j2len : Nat → Nat) (i : Nat)
    (hrow : ∀ j, j2len j ≤ j + 1 - blo ∧ j2len j ≤ i - alo) :
    ∀ (js : List Nat) (st : (Nat → Nat) × Block),
      (∀ j ∈ js, blo ≤ j) →
      (∀ j, st.1 j ≤ j + 1 - blo ∧ st.1 j ≤ i - alo + 1) →
      ∀ j, (js.foldl (flmInnerStep j2len i) st).1 j ≤ j + 1 - blo ∧
        (js.foldl (flmInnerStep j2len i) st).1 j ≤ i - alo + 1
  | [], st, _, hst, j => hst j
  | j0 :: rest, st, hjs, hst, j => by
    rw [List.foldl_cons]
    refine flmInner_row_bound j2len i hrow rest _
      (fun j' hj' => hjs j' (List.mem_cons_of_mem _ hj')) ?_ j
    have hj0 := hjs j0 (List.mem_cons_self _ _)
    have hk := kVal_le_of_row hrow hj0
    intro j'
    rw [flmInnerStep_fn]
    dsimp only
    by_cases hjj : j' = j0
    · rw [if_pos hjj]
      exact ⟨hjj ▸ hk.1, hk.2⟩
    · rw [if_neg hjj]
      exact hst j'

theorem flmOuter_fold_bounds {a b : List String} {alo ahi blo bhi : Nat} :
    ∀ (cnt start : Nat), alo ≤ start → start + cnt ≤ ahi →
      ∀ st : (Nat → Nat) × Block,
        BestBnd alo ahi blo bhi st.2 →
        (∀ j, st.1 j ≤ j + 1 - blo ∧ st.1 j ≤ start - alo) →
        BestBnd alo ahi blo bhi
          (((List.range' start cnt).foldl (flmOuterStep a b blo bhi) st)).2
  | 0, start, _, _, st, hb, _ => hb
  | cnt + 1, start, hs, hcnt, st, hb, hrow => by
    rw [List.range'_succ, List.foldl_cons]
    have hwin : ∀ j ∈ (b2jGet b (a.getD start "")).filter
        (fun j => decide (blo ≤ j ∧ j < bhi)), blo ≤ j ∧ j < bhi := by
      intro j hj
      have h := List.of_mem_filter hj
      exact of_decide_eq_true h
    refine flmOuter_fold_bounds cnt (start + 1) (by omega) (by omega) _ ?_ ?_
    · unfold flmOuterStep
      exact flmInner_bounds st.1 start hrow ⟨hs, by omega⟩ _ _
        (fun j hj => hwin j hj) hb
    · unfold flmOuterStep
      dsimp only
      intro j
      have h := @flmInner_row_bound alo _ st.1 start hrow _
        (fun _ => 0, st.2) (fun j' hj' => (hwin j' hj').1) (fun j' => by simp) j
      refine ⟨h.1, ?_⟩
      have h2 := h.2
      omega

theorem flmMain_bounds (a b : List String) {alo ahi blo bhi : Nat}
    (ha : alo ≤ ahi) (hb : blo ≤ bhi) :
    BestBnd alo ahi blo bhi (flmMain a b alo ahi blo bhi) := by
  unfold flmMain
  refine flmOuter_fold_bounds (ahi - alo) alo (Nat.le_refl _) (by omega) _
    ?_ (fun j => by simp)
  show BestBnd alo ahi blo bhi (alo, blo, 0)
  exact ⟨Nat.le_refl _, Nat.le_refl _, by show alo + 0 ≤ ahi; omega,
    by show blo + 0 ≤ bhi; omega⟩

theorem extendBack_bounds (a b : List String) {alo ahi blo bhi : Nat} :
    ∀ (besti bestj bestsize : Nat),
      BestBnd alo ahi blo bhi (besti, bestj, bestsize) →
      BestBnd alo ahi blo bhi (extendBack a b alo blo besti bestj bestsize)
  | 0, bestj, bestsize, h => h
  | besti + 1, bestj, bestsize, h => by
    have h' : alo ≤ besti + 1 ∧ blo ≤ bestj ∧ besti + 1 + bestsize ≤ ahi ∧
        bestj + bestsize ≤ bhi := h
    unfold extendBack
    split
    · next hc =>
      obtain ⟨hc1, hc2, hc3⟩ := hc
      refine extendBack_bounds a b besti (bestj - 1) (bestsize + 1) ?_
      show alo ≤ besti ∧ blo ≤ bestj - 1 ∧ besti + (bestsize + 1) ≤ ahi ∧
        bestj - 1 + (bestsize + 1) ≤ bhi
      obtain ⟨g1, g2, g3, g4⟩ := h'
      exact ⟨by omega, by omega, by omega, by omega⟩
    · exact h

theorem extendFwdAux_le (a b : List String) {ahi bhi : Nat} (besti bestj : Nat) :
    ∀ (gap bestsize : Nat), besti + bestsize + gap ≤ ahi →
      bestj + bestsize ≤ bhi →
      besti + extendFwdAux a b bhi besti bestj gap bestsize ≤ ahi ∧
        bestj + extendFwdAux a b bhi besti bestj gap bestsize ≤ bhi
  | 0, bestsize, h1, h2 =>
    ⟨by show besti + bestsize ≤ ahi; omega, by show bestj + bestsize ≤ bhi; exact h2⟩
  | gap + 1, bestsize, h1, h2 => by
    unfold extendFwdAux
    split
    · next hc =>
      exact extendFwdAux_le a b besti bestj gap (bestsize + 1) (by omega) (by omega)
    · exact ⟨by omega, h2⟩

theorem findLongestMatch_bounds (a b : List String) {alo ahi blo bhi : Nat}
    (ha : alo ≤ ahi) (hb : blo ≤ bhi) :
    BestBnd alo ahi blo bhi (findLongestMatch a b alo ahi blo bhi) := by
  unfold findLongestMatch
  have hm := flmMain_bounds a b ha hb
  set m := flmMain a b alo ahi blo bhi with hmdef
  have he := extendBack_bounds a b m.1 m.2.1 m.2.2 hm
  set e := extendBack a b alo blo m.1 m.2.1 m.2.2 with hedef
  obtain ⟨he1, he2, he3, he4⟩ := he
  unfold extendFwd
  have hf := @extendFwdAux_le a b ahi _ e.1 e.2.1 (ahi - (e.1 + e.2.2))
    e.2.2 (by omega) he4
  exact ⟨he1, he2, hf.1, hf.2⟩

theorem ValidChain_weaken_end {ahi bhi ahi' bhi' : Nat}
    (h1 : ahi ≤ ahi') (h2 : bhi ≤ bhi') :
    ∀ {alo blo : Nat} {bs : List Block},
      ValidChain alo blo ahi bhi bs → ValidChain alo blo ahi' bhi' bs
  | _, _, [], _ => trivial
  | alo, blo, (i, j, k) :: rest, h => by
    obtain ⟨g1, g2, g3, g4, g5, g6⟩ := h
    exact ⟨g1, g2, g3, by omega, by omega, ValidChain_weaken_end h1 h2 g6⟩

theorem ValidChain_weaken_start {alo blo alo' blo' ahi bhi : Nat}
    (h1 : alo' ≤ alo) (h2 : blo' ≤ blo) {bs : List Block}
    (h : ValidChain alo blo ahi bhi bs) : ValidChain alo' blo' ahi bhi bs := by
  cases bs with
  | nil => trivial
  | cons bl rest =>
    obtain ⟨bi, bj, bk⟩ := bl
    obtain ⟨g1, g2, g3, g4, g5, g6⟩ := h
    exact ⟨by omega, by omega, g3, g4, g5, g6⟩

theorem ValidChain_append {ahi bhi : Nat} :
    ∀ {xs : List Block} {alo blo mi mj : Nat},
      ValidChain alo blo mi mj xs → alo ≤ mi → blo ≤ mj → mi ≤ ahi → mj ≤ bhi →
      ∀ {ys : List Block}, ValidChain mi mj ahi bhi ys →
      ValidChain alo blo ahi bhi (xs ++ ys)
  | [], alo, blo, mi, mj, _, h1, h2, _, _, ys, hys => by
    rw [List.nil_append]
    exact ValidChain_weaken_start h1 h2 hys
  | (i, j, k) :: rest, alo, blo, mi, mj, hxs, h1, h2, h3, h4, ys, hys => by
    obtain ⟨g1, g2, g3, g4, g5, g6⟩ := hxs
    rw [List.cons_append]
    exact ⟨g1, g2, g3, by omega, by omega,
      ValidChain_append g6 g4 g5 h3 h4 hys⟩

theorem matchingBlocksAux_valid (a b : List String) :
    ∀ (fuel alo ahi blo bhi : Nat), alo ≤ ahi → blo ≤ bhi →
      ValidChain alo blo ahi bhi (matchingBlocksAux a b fuel alo ahi blo bhi)
  | 0, alo, ahi, blo, bhi, _, _ => trivial
  | fuel + 1, alo, ahi, blo, bhi, ha, hb => by
    unfold matchingBlocksAux
    dsimp only
    split
    · trivial
    · next hk =>
      obtain ⟨h1, h2, h3, h4⟩ :=
        findLongestMatch_bounds a b ha hb
      set m := findLongestMatch a b alo ahi blo bhi with hm
      have hleft := matchingBlocksAux_valid a b fuel alo m.1 blo m.2.1 h1 h2
      have hright := matchingBlocksAux_valid a b fuel (m.1 + m.2.2) ahi
        (m.2.1 + m.2.2) bhi h3 h4
      have hmid : ValidChain m.1 m.2.1 ahi bhi (m :: matchingBlocksAux a b fuel
          (m.1 + m.2.2) ahi (m.2.1 + m.2.2) bhi) := by
        refine ⟨Nat.le_refl _, Nat.le_refl _, Nat.pos_of_ne_zero hk, ?_, ?_, ?_⟩
        · exact h3
        · exact h4
        · exact hright
      have := ValidChain_append hleft h1 h2
        (by omega) (by omega) hmid
      simpa using this

theorem mergeAux_valid {ahi bhi : Nat} :
    ∀ (bs : List Block) (i1 j1 k1 : Nat), i1 + k1 ≤ ahi → j1 + k1 ≤ bhi →
      ValidChain (i1 + k1) (j1 + k1) ahi bhi bs →
      ValidChain i1 j1 ahi bhi (mergeAux i1 j1 k1 bs)
  | [], i1, j1, k1, h1, h2, _ => by
    unfold mergeAux
    split
    · trivial
    · next hk => exact ⟨Nat.le_refl _, Nat.le_refl _, by omega, h1, h2, trivial⟩
  | (i2, j2, k2) :: rest, i1, j1, k1, h1, h2, hch => by
    obtain ⟨g1, g2, g3, g4, g5, g6⟩ := hch
    unfold mergeAux
    split
    · next hadj =>
      refine mergeAux_valid rest i1 j1 (k1 + k2) ?_ ?_ ?_
      · omega
      · omega
      · have : i1 + (k1 + k2) = i2 + k2 ∧ j1 + (k1 + k2) = j2 + k2 := by omega
        rw [this.1, this.2]
        exact g6
    · next hadj =>
      have hrest := mergeAux_valid rest i2 j2 k2 g4 g5 g6
      split
      · next hk =>
        rw [List.nil_append]
        exact ValidChain_weaken_start (by omega) (by omega) hrest
      · next hk =>
        rw [List.singleton_append]
        exact ⟨Nat.le_refl _, Nat.le_refl _, by omega, h1, h2,
          ValidChain_weaken_start (by omega) (by omega) hrest⟩

theorem getMatchingBlocks_split (a b : List String) :
    getMatchingBlocks a b =
      mergeAux 0 0 0 (matchingBlocksAux a b (a.length + b.length + 1) 0 a.length
        0 b.length) ++ [(a.length, b.length, 0)] ∧
    ValidChain 0 0 a.length b.length
      (mergeAux 0 0 0 (matchingBlocksAux a b (a.length + b.length + 1) 0 a.length
        0 b.length)) := by
  refine ⟨rfl, ?_⟩
  refine mergeAux_valid _ 0 0 0 (by omega) (by omega) ?_
  exact matchingBlocksAux_valid a b _ 0 a.length 0 b.length (Nat.zero_le _)
    (Nat.zero_le _)

theorem walkB_le {la lb : Nat} :
    ∀ {ops : List Opcode} {i j : Nat},
      opcodesWalkB i j la lb ops = true → i ≤ la ∧ j ≤ lb
  | [], i, j, h => by
    unfold opcodesWalkB at h
    simp only [Bool.and_eq_true, decide_eq_true_eq] at h
    omega
  | op :: rest, i, j, h => by
    unfold opcodesWalkB at h
    simp only [Bool.and_eq_true, decide_eq_true_eq] at h
    obtain ⟨⟨⟨h1, h2⟩, htag⟩, hw⟩ := h
    have hrest := walkB_le hw
    revert htag
    cases op.tag <;> intro htag <;>
      simp only [Bool.and_eq_true, decide_eq_true_eq] at htag <;> omega

theorem opcodesAux_walk {la lb : Nat} :
    ∀ (ms : List Block) (i j : Nat), ValidChain i j la lb ms → i ≤ la → j ≤ lb →
      opcodesWalkB i j la lb (opcodesAux i j (ms ++ [(la, lb, 0)])) = true
  | [], i, j, _, hia, hjb => by
    rw [List.nil_append]
    unfold opcodesAux
    by_cases h1 : i < la <;> by_cases h2 : j < lb
    · rw [if_pos ⟨h1, h2⟩]
      simp [opcodesWalkB, h1, h2]
    · rw [if_neg (fun hc => h2 hc.2), if_pos h1]
      have : j = lb := by omega
      simp [opcodesWalkB, h1, this]
    · rw [if_neg (fun hc => h1 hc.1), if_neg h1, if_pos h2]
      have : i = la := by omega
      simp [opcodesWalkB, h2, this]
    · rw [if_neg (fun hc => h1 hc.1), if_neg h1, if_neg h2]
      have hi : i = la := by omega
      have hj : j = lb := by omega
      simp [opcodesWalkB, hi, hj]
  | (ai, bj, k) :: rest, i, j, hch, hia, hjb => by
    obtain ⟨g1, g2, g3, g4, g5, g6⟩ := hch
    rw [List.cons_append]
    unfold opcodesAux
    have hIH := opcodesAux_walk rest (ai + k) (bj + k) g6 g4 g5
    have hkne : k ≠ 0 := by omega
    rw [if_pos hkne]
    by_cases h1 : i < ai <;> by_cases h2 : j < bj
    · rw [if_pos ⟨h1, h2⟩]
      simp only [List.cons_append, List.singleton_append]
      simp [opcodesWalkB, h1, h2, hIH]
      omega
    · rw [if_neg (fun hc => h2 hc.2), if_pos h1]
      have hj : j = bj := by omega
      simp only [List.cons_append, List.singleton_append]
      simp [opcodesWalkB, h1, hj, hIH]
      omega
    · rw [if_neg (fun hc => h1 hc.1), if_neg h1, if_pos h2]
      have hi : i = ai := by omega
      simp only [List.cons_append, List.singleton_append]
      simp [opcodesWalkB, h2, hi, hIH]
      omega
    · rw [if_neg (fun hc => h1 hc.1), if_neg h1, if_neg h2]
      have hi : i = ai := by omega
      have hj : j = bj := by omega
      simp only [List.nil_append, List.singleton_append]
      simp [opcodesWalkB, hi, hj, hIH]
      omega

theorem getOpcodes_walk (a b : List String) :
    opcodesWalkB 0 0 a.length b.length (getOpcodes a b) = true := by
  obtain ⟨hsplit, hvalid⟩ := getMatchingBlocks_split a b
  unfold getOpcodes
  rw [hsplit]
  exact opcodesAux_walk _ 0 0 hvalid (Nat.zero_le _) (Nat.zero_le _)

/-! ## Line Differ claims: alignment -/

/-- C1 (amended): for every pair of inputs, the opcode sequence the Line
Differ renders is a valid walk over both line sequences — the opcode ranges
partition each sequence exactly once, left to right, starting at position
`(0, 0)` and ending at the two line counts.  (The original claim's further
requirement, that the alignment also minimize the total number of edit
operations as standard LCS-based alignment does, is refuted by
`claim1_not_minimal_cx`: difflib's greedy longest-matching-block heuristic is
not minimal.) -/
theorem claim1_valid_walk (oldText newText : String) :
    opcodesWalkB 0 0 (splitlines oldText).length (splitlines newText).length
      (getOpcodes (splitlines oldText) (splitlines newText)) = true :=
  getOpcodes_walk _ _

/-- C1 (counterexample): for `old = "a\na\na"` and `new = "a\nb\na\na"` the
rendered opcode sequence performs 3 line edit operations, while a valid walk
with a single edit operation exists (insert one line), matching the
spec-modelled LCS bound `3 + 4 - 2·lcs = 1`; so the Line Differ's alignment
does not minimize the total number of edit operations. -/
theorem claim1_not_minimal_cx :
    editOps (getOpcodes (splitlines "a\na\na") (splitlines "a\nb\na\na")) = 3 ∧
    opcodesWalkB 0 0 (splitlines "a\na\na").length (splitlines "a\nb\na\na").length
      [⟨.equal, 0, 1, 0, 1⟩, ⟨.insert, 1, 1, 1, 2⟩, ⟨.equal, 1, 3, 2, 4⟩] = true ∧
    editOps [⟨.equal, 0, 1, 0, 1⟩, ⟨.insert, 1, 1, 1, 2⟩, ⟨.equal, 1, 3, 2, 4⟩]
      = 1 ∧
    specLcsLen (splitlines "a\na\na") (splitlines "a\nb\na\na") = 3 ∧
    (splitlines "a\na\na").length + (splitlines "a\nb\na\na").length -
        2 * specLcsLen (splitlines "a\na\na") (splitlines "a\nb\na\na") = 1 := by
  refine ⟨by decide, by decide, by decide, by decide, by decide⟩

/-- C8: for `old = "a\nb\nc"` and `new = "a\nx\nc"` the Line Differ renders
`a` as unchanged (old 1, new 1), then `b` removed (old 2), then `x` added
(new 2), then `c` unchanged (old 3, new 3) — the replace block degrades to
its delete run immediately followed by its insert run — and the full
formatted output is exactly the corresponding four numbered lines. -/
theorem claim8_concrete_replace_render :
    diffEntries (splitlines "a\nb\nc") (splitlines "a\nx\nc") =
      [.equal 1 1 "a", .removed 2 "b", .added 2 "x", .equal 3 3 "c"] ∧
    getOpcodes (splitlines "a\nb\nc") (splitlines "a\nx\nc") =
      [⟨.equal, 0, 1, 0, 1⟩, ⟨.replace, 1, 2, 1, 2⟩, ⟨.equal, 2, 3, 2, 3⟩] ∧
    generate_git_style_diff "a\nb\nc" "a\nx\nc" =
      "   1    1  a\n   2      - b\n        2 + x\n   3    3  c" := by
  refine ⟨by decide, by decide, by decide⟩

/-! ## Line numbering -/

theorem oldNums_equalEntries : ∀ (ts : List String) (o n : Nat),
    oldNums (equalEntries o n ts) = List.range' o ts.length
  | [], _, _ => rfl
  | t :: ts, o, n => by
    unfold equalEntries oldNums
    rw [List.filterMap_cons]
    simp only [entryOldNo]
    rw [show List.filterMap entryOldNo (equalEntries (o + 1) (n + 1) ts) =
      List.range' (o + 1) ts.length from oldNums_equalEntries ts (o + 1) (n + 1)]
    simp [List.range'_succ]

theorem newNums_equalEntries : ∀ (ts : List String) (o n : Nat),
    newNums (equalEntries o n ts) = List.range' n ts.length
  | [], _, _ => rfl
  | t :: ts, o, n => by
    unfold equalEntries newNums
    rw [List.filterMap_cons]
    simp only [entryNewNo]
    rw [show List.filterMap entryNewNo (equalEntries (o + 1) (n + 1) ts) =
      List.range' (n + 1) ts.length from newNums_equalEntries ts (o + 1) (n + 1)]
    simp [List.range'_succ]

theorem oldNums_removedEntries : ∀ (ts : List String) (o : Nat),
    oldNums (removedEntries o ts) = List.range' o ts.length
  | [], _ => rfl
  | t :: ts, o => by
    unfold removedEntries oldNums
    rw [List.filterMap_cons]
    simp only [entryOldNo]
    rw [show List.filterMap entryOldNo (removedEntries (o + 1) ts) =
      List.range' (o + 1) ts.length from oldNums_removedEntries ts (o + 1)]
    simp [List.range'_succ]

theorem newNums_removedEntries : ∀ (ts : List String) (o : Nat),
    newNums (removedEntries o ts) = []
  | [], _ => rfl
  | t :: ts, o => by
    unfold removedEntries newNums
    rw [List.filterMap_cons]
    simp only [entryNewNo]
    exact newNums_removedEntries ts (o + 1)

theorem oldNums_addedEntries : ∀ (ts : List String) (n : Nat),
    oldNums (addedEntries n ts) = []
  | [], _ => rfl
  | t :: ts, n => by
    unfold addedEntries oldNums
    rw [List.filterMap_cons]
    simp only [entryOldNo]
    exact oldNums_addedEntries ts (n + 1)

theorem newNums_addedEntries : ∀ (ts : List String) (n : Nat),
    newNums (addedEntries n ts) = List.range' n ts.length
  | [], _ => rfl
  | t :: ts, n => by
    unfold addedEntries newNums
    rw [List.filterMap_cons]
    simp only [entryNewNo]
    rw [show List.filterMap entryNewNo (addedEntries (n + 1) ts) =
      List.range' (n + 1) ts.length from newNums_addedEntries ts (n + 1)]
    simp [List.range'_succ]

theorem slice_length {ls : List String} {i1 i2 : Nat} (h : i2 ≤ ls.length) :
    (slice ls i1 i2).length = i2 - i1 := by
  unfold slice
  rw [List.length_take, List.length_drop]
  omega

theorem oldNums_append (xs ys : List DiffEntry) :
    oldNums (xs ++ ys) = oldNums xs ++ oldNums ys :=
  List.filterMap_append _ _ _

theorem newNums_append (xs ys : List DiffEntry) :
    newNums (xs ++ ys) = newNums xs ++ newNums ys :=
  List.filterMap_append _ _ _

theorem range'_glue {s m t n len : Nat} (h1 : s + m = t) (h2 : m + n = len) :
    List.range' s m ++ List.range' t n = List.range' s len := by
  subst h1
  rw [List.range'_append_1]
  congr 1
  omega

theorem diffEntriesAux_nums {pl cl : List String} :
    ∀ (ops : List Opcode) (i j : Nat),
      opcodesWalkB i j pl.length cl.length ops = true →
      oldNums (diffEntriesAux pl cl (i + 1) (j + 1) ops) =
        List.range' (i + 1) (pl.length - i) ∧
      newNums (diffEntriesAux pl cl (i + 1) (j + 1) ops) =
        List.range' (j + 1) (cl.length - j)
  | [], i, j, h => by
    unfold opcodesWalkB at h
    simp only [Bool.and_eq_true, decide_eq_true_eq] at h
    unfold diffEntriesAux oldNums newNums
    rw [List.filterMap_nil, List.filterMap_nil, h.1, h.2]
    simp
  | op :: rest, i, j, h => by
    unfold opcodesWalkB at h
    simp only [Bool.and_eq_true, decide_eq_true_eq] at h
    obtain ⟨⟨⟨h1, h2⟩, htag⟩, hw⟩ := h
    have hle := walkB_le hw
    have hIH := diffEntriesAux_nums rest op.i2 op.j2 hw
    unfold diffEntriesAux
    revert htag
    cases op.tag <;> intro htag <;>
      simp only [Bool.and_eq_true, decide_eq_true_eq] at htag
    · -- replace
      rw [show i + 1 + (op.i2 - op.i1) = op.i2 + 1 by omega,
        show j + 1 + (op.j2 - op.j1) = op.j2 + 1 by omega]
      constructor
      · rw [oldNums_append, oldNums_append, oldNums_removedEntries,
          oldNums_addedEntries, slice_length hle.1, hIH.1, h1]
        rw [List.append_nil]
        exact range'_glue (by omega) (by omega)
      · rw [newNums_append, newNums_append, newNums_removedEntries,
          newNums_addedEntries, slice_length hle.2, hIH.2, h2]
        rw [List.nil_append]
        exact range'_glue (by omega) (by omega)
    · -- delete
      rw [show i + 1 + (op.i2 - op.i1) = op.i2 + 1 by omega,
        show j + 1 = op.j2 + 1 by omega]
      constructor
      · rw [oldNums_append, oldNums_removedEntries, slice_length hle.1, hIH.1, h1]
        exact range'_glue (by omega) (by omega)
      · rw [newNums_append, newNums_removedEntries, hIH.2]
        rw [List.nil_append]
        congr 1
        omega
    · -- insert
      rw [show j + 1 + (op.j2 - op.j1) = op.j2 + 1 by omega,
        show i + 1 = op.i2 + 1 by omega]
      constructor
      · rw [oldNums_append, oldNums_addedEntries, hIH.1]
        rw [List.nil_append]
        congr 1
        omega
      · rw [newNums_append, newNums_addedEntries, slice_length hle.2, hIH.2, h2]
        exact range'_glue (by omega) (by omega)
    · -- equal
      rw [show i + 1 + (op.i2 - op.i1) = op.i2 + 1 by omega,
        show j + 1 + (op.j2 - op.j1) = op.j2 + 1 by omega]
      constructor
      · rw [oldNums_append, oldNums_equalEntries, slice_length hle.1, hIH.1, h1]
        exact range'_glue (by omega) (by omega)
      · rw [newNums_append, newNums_equalEntries, slice_length hle.1, hIH.2, h1]
        exact range'_glue (by omega) (by omega)

/-- C2: for every pair of inputs, the number of rendered lines carrying an
old-side line number equals the line count of the old text, and the number
carrying a new-side line number equals the line count of the new text (each
rendered line of `generate_git_style_diff` is one `DiffEntry`, and
`oldNums`/`newNums` collect the numbers the entries carry). -/
theorem claim2_line_count_reconstruction (oldText newText : String) :
    (oldNums (diffEntries (splitlines oldText) (splitlines newText))).length =
      (splitlines oldText).length ∧
    (newNums (diffEntries (splitlines oldText) (splitlines newText))).length =
      (splitlines newText).length := by
  have h := @diffEntriesAux_nums (splitlines oldText) (splitlines newText)
    (getOpcodes (splitlines oldText) (splitlines newText)) 0 0
    (getOpcodes_walk _ _)
  unfold diffEntries
  rw [h.1, h.2]
  simp

/-- C3: for every pair of inputs, the old-side line numbers across the full
output in rendering order are exactly `1, 2, …, |old|` — in particular
strictly increasing, starting at 1, and advancing once per line consumed
from the old side — and independently the new-side numbers are exactly
`1, 2, …, |new|`. -/
theorem claim3_strictly_increasing_numbers (oldText newText : String) :
    oldNums (diffEntries (splitlines oldText) (splitlines newText)) =
      List.range' 1 (splitlines oldText).length ∧
    newNums (diffEntries (splitlines oldText) (splitlines newText)) =
      List.range' 1 (splitlines newText).length ∧
    List.Pairwise (· < ·)
      (oldNums (diffEntries (splitlines oldText) (splitlines newText))) ∧
    List.Pairwise (· < ·)
      (newNums (diffEntries (splitlines oldText) (splitlines newText))) := by
  have h := @diffEntriesAux_nums (splitlines oldText) (splitlines newText)
    (getOpcodes (splitlines oldText) (splitlines newText)) 0 0
    (getOpcodes_walk _ _)
  unfold diffEntries
  rw [h.1, h.2]
  refine ⟨by simp, by simp, ?_, ?_⟩
  · exact List.pairwise_lt_range' _ _
  · exact List.pairwise_lt_range' _ _

/-! ## Identical inputs: the matcher returns one full-length diagonal block -/

theorem mem_b2jGet {b : List String} {x : String} {j : Nat}
    (h : j ∈ b2jGet b x) : j < b.length ∧ b.getD j "" = x := by
  unfold b2jGet at h
  dsimp only at h
  split at h
  · cases h
  · unfold idxsOf at h
    have hm := List.of_mem_filter h
    have hr := List.mem_filter.mp h
    exact ⟨List.mem_range.mp hr.1, of_decide_eq_true hm⟩

theorem mem_b2jGet_self {l : List String} {i j : Nat}
    (h : j ∈ b2jGet l (l.getD i "")) : j ∈ b2jGet l (l.getD j "") := by
  have hx := mem_b2jGet h
  rw [hx.2]
  exact h

theorem b2jGet_self_of_ne_nil {l : List String} {i : Nat} (hi : i < l.length)
    (hne : b2jGet l (l.getD i "") ≠ []) : i ∈ b2jGet l (l.getD i "") := by
  unfold b2jGet at hne ⊢
  dsimp only at hne ⊢
  by_cases hc : 200 ≤ l.length ∧
      l.length / 100 + 1 < (idxsOf l (l.getD i "")).length
  · rw [if_pos hc] at hne
    exact absurd rfl hne
  · rw [if_neg hc]
    unfold idxsOf
    exact List.mem_filter.mpr ⟨List.mem_range.mpr hi, by simp⟩

theorem diagRun_pos {l : List String} {j : Nat}
    (h : j ∈ b2jGet l (l.getD j "")) : 1 ≤ diagRun l j := by
  cases j with
  | zero =>
    unfold diagRun
    rw [if_pos h]
  | succ j' =>
    unfold diagRun
    rw [if_pos h]
    omega

theorem runR_le_diag_j (l : List String) :
    ∀ i j, runR l i j ≤ diagRun l j
  | 0, j => by
    unfold runR
    split
    · next h => exact diagRun_pos (mem_b2jGet_self h)
    · exact Nat.zero_le _
  | i + 1, 0 => by
    unfold runR
    split
    · next h => exact diagRun_pos (mem_b2jGet_self h)
    · exact Nat.zero_le _
  | i + 1, j + 1 => by
    unfold runR
    split
    · next h =>
      have hmem := mem_b2jGet_self h
      show runR l i j + 1 ≤ diagRun l (j + 1)
      unfold diagRun
      rw [if_pos hmem]
      have := runR_le_diag_j l i j
      omega
    · exact Nat.zero_le _

theorem runR_le_diag_i (l : List String) :
    ∀ i j, i < l.length → runR l i j ≤ diagRun l i
  | 0, j, hi => by
    unfold runR
    split
    · next h =>
      refine diagRun_pos (b2jGet_self_of_ne_nil hi ?_)
      intro hc
      rw [hc] at h
      cases h
    · exact Nat.zero_le _
  | i + 1, 0, hi => by
    unfold runR
    split
    · next h =>
      refine diagRun_pos (b2jGet_self_of_ne_nil hi ?_)
      intro hc
      rw [hc] at h
      cases h
    · exact Nat.zero_le _
  | i + 1, j + 1, hi => by
    unfold runR
    split
    · next h =>
      have hself : (i + 1) ∈ b2jGet l (l.getD (i + 1) "") := by
        refine b2jGet_self_of_ne_nil hi ?_
        intro hc
        rw [hc] at h
        cases h
      show runR l i j + 1 ≤ diagRun l (i + 1)
      unfold diagRun
      rw [if_pos hself]
      have := runR_le_diag_i l i j (by omega)
      omega
    · exact Nat.zero_le _

theorem runR_diag_eq (l : List String) : ∀ i, runR l i i = diagRun l i
  | 0 => rfl
  | i + 1 => by
    unfold runR diagRun
    rw [runR_diag_eq l i]

theorem diagRun_le_maxDiagUpTo (l : List String) :
    ∀ (m j : Nat), j < m → diagRun l j ≤ maxDiagUpTo l m
  | 0, j, h => absurd h (Nat.not_lt_zero _)
  | m + 1, j, h => by
    unfold maxDiagUpTo
    by_cases hj : j = m
    · subst hj
      exact Nat.le_max_right _ _
    · exact Nat.le_trans (diagRun_le_maxDiagUpTo l m j (by omega))
        (Nat.le_max_left _ _)

theorem runR_succ_succ {l : List String} {i j : Nat}
    (h : (j + 1) ∈ b2jGet l (l.getD (i + 1) "")) :
    runR l (i + 1) (j + 1) = runR l i j + 1 := by
  show (if (j + 1) ∈ b2jGet l (l.getD (i + 1) "") then runR l i j + 1 else 0) =
    runR l i j + 1
  rw [if_pos h]

theorem kVal_rowFun (l : List String) :
    ∀ {i j : Nat}, j ∈ b2jGet l (l.getD i "") → kVal (rowFun l i) j = runR l i j
  | 0, j, h => by
    unfold kVal rowFun runR
    rw [if_pos h]
    split <;> rfl
  | i + 1, 0, h => by
    unfold kVal rowFun runR
    rw [if_pos h, if_pos rfl]
  | i + 1, j + 1, h => by
    unfold kVal rowFun
    show (if j + 1 = 0 then 0 else runR l i (j + 1 - 1)) + 1 = runR l (i + 1) (j + 1)
    rw [if_neg (Nat.succ_ne_zero j), Nat.add_sub_cancel, runR_succ_succ h]

theorem runR_eq_zero_of_not_mem {l : List String} {i j : Nat}
    (h : j ∉ b2jGet l (l.getD i "")) : runR l i j = 0 := by
  cases i <;> cases j <;> (unfold runR; rw [if_neg h])

theorem innerFold_fn : ∀ (js : List Nat) (j2len : Nat → Nat) (i : Nat)
    (st : (Nat → Nat) × Block) (j : Nat),
    (js.foldl (flmInnerStep j2len i) st).1 j =
      if j ∈ js then kVal j2len j else st.1 j
  | [], _, _, st, j => by simp
  | j0 :: rest, j2len, i, st, j => by
    rw [List.foldl_cons, innerFold_fn rest j2len i _ j]
    by_cases hj : j ∈ rest
    · rw [if_pos hj, if_pos (List.mem_cons_of_mem _ hj)]
    · rw [if_neg hj, flmInnerStep_fn]
      dsimp only
      by_cases hjj : j = j0
      · rw [if_pos hjj, if_pos (by rw [hjj]; exact List.mem_cons_self _ _), hjj]
      · rw [if_neg hjj, if_neg (by simp [hjj, hj])]

theorem innerFold_no_update : ∀ (js : List Nat) (j2len : Nat → Nat) (i : Nat)
    (st : (Nat → Nat) × Block), (∀ j ∈ js, kVal j2len j ≤ st.2.2.2) →
    (js.foldl (flmInnerStep j2len i) st).2 = st.2
  | [], _, _, st, _ => rfl
  | j0 :: rest, j2len, i, st, h => by
    rw [List.foldl_cons]
    have hstep : (flmInnerStep j2len i st j0).2 = st.2 := by
      rw [flmInnerStep_best]
      rw [if_neg (by have := h j0 (List.mem_cons_self _ _); omega)]
    rw [innerFold_no_update rest j2len i _
      (fun j hj => by rw [hstep]; exact h j (List.mem_cons_of_mem _ hj)), hstep]

theorem range_filter_split {n i : Nat} (p : Nat → Bool) (hi : i < n)
    (hp : p i = true) :
    (List.range n).filter p =
      (List.range i).filter p ++ i ::
        (List.range' (i + 1) (n - (i + 1))).filter p := by
  have hsplit : List.range n = List.range i ++ i ::
      List.range' (i + 1) (n - (i + 1)) := by
    rw [List.range_eq_range', List.range_eq_range']
    rw [show i :: List.range' (i + 1) (n - (i + 1)) = List.range' i (n - i) from by
      rw [show n - i = (n - (i + 1)) + 1 by omega, List.range'_succ]]
    rw [show List.range' i (n - i) = List.range' (0 + i) (n - i) by
      rw [Nat.zero_add]]
    rw [List.range'_append_1]
    congr 1
    omega
  rw [hsplit, List.filter_append, List.filter_cons, hp]
  simp

theorem mem_range_filter_lt {i : Nat} {p : Nat → Bool} {j : Nat}
    (h : j ∈ (List.range i).filter p) : j < i :=
  List.mem_range.mp (List.mem_filter.mp h).1

theorem mem_range'_filter_gt {s m : Nat} {p : Nat → Bool} {j : Nat}
    (h : j ∈ (List.range' s m).filter p) : s ≤ j := by
  have := (List.mem_filter.mp h).1
  obtain ⟨t, _, rfl⟩ := List.mem_range'.mp this
  omega

theorem kVal_congr {f g : Nat → Nat} (h : ∀ x, f x = g x) (j : Nat) :
    kVal f j = kVal g j := by
  unfold kVal
  by_cases h0 : j = 0
  · rw [if_pos h0, if_pos h0]
  · rw [if_neg h0, if_neg h0, h (j - 1)]

theorem js_filter_id (l : List String) (x : String) :
    (b2jGet l x).filter (fun j => decide (0 ≤ j ∧ j < l.length)) = b2jGet l x :=
  List.filter_eq_self.mpr fun _ hj =>
    decide_eq_true ⟨Nat.zero_le _, (mem_b2jGet hj).1⟩

theorem b2jGet_ne_nil_eq {l : List String} {x : String} (h : b2jGet l x ≠ []) :
    b2jGet l x = idxsOf l x := by
  unfold b2jGet at h ⊢
  dsimp only at h ⊢
  by_cases hc : 200 ≤ l.length ∧ l.length / 100 + 1 < (idxsOf l x).length
  · rw [if_pos hc] at h
    exact absurd rfl h
  · rw [if_neg hc]

theorem flmRow_diag (l : List String) (i : Nat) (hi : i < l.length)
    (st : (Nat → Nat) × Block)
    (hf : ∀ j, st.1 j = rowFun l i j) (hd : st.2.1 = st.2.2.1)
    (hbs : maxDiagUpTo l i ≤ st.2.2.2) :
    (∀ j, (flmOuterStep l l 0 l.length st i).1 j = rowFun l (i + 1) j) ∧
    (flmOuterStep l l 0 l.length st i).2.1 =
      (flmOuterStep l l 0 l.length st i).2.2.1 ∧
    maxDiagUpTo l (i + 1) ≤ (flmOuterStep l l 0 l.length st i).2.2.2 := by
  obtain ⟨f, best⟩ := st
  obtain ⟨b1, b2, bs⟩ := best
  dsimp only at hf hd hbs
  subst hd
  unfold flmOuterStep
  dsimp only
  rw [js_filter_id]
  have hkval : ∀ j ∈ b2jGet l (l.getD i ""), kVal f j = runR l i j := by
    intro j hj
    rw [kVal_congr hf j, kVal_rowFun l hj]
  constructor
  · -- the new row equals runR l i
    intro j
    rw [innerFold_fn]
    by_cases hj : j ∈ b2jGet l (l.getD i "")
    · rw [if_pos hj, hkval j hj]
      rfl
    · rw [if_neg hj]
      show 0 = rowFun l (i + 1) j
      rw [show rowFun l (i + 1) j = runR l i j from rfl,
        runR_eq_zero_of_not_mem hj]
  · -- the best block stays diagonal and dominates the diagonal runs
    by_cases hnil : b2jGet l (l.getD i "") = []
    · rw [hnil]
      dsimp only [List.foldl_nil]
      refine ⟨rfl, ?_⟩
      have hdiag0 : diagRun l i = 0 := by
        have hnotmem : i ∉ b2jGet l (l.getD i "") := by
          rw [hnil]
          exact List.not_mem_nil i
        cases i <;> (unfold diagRun; rw [if_neg hnotmem])
      unfold maxDiagUpTo
      rw [hdiag0]
      simp only [Nat.max_zero]
      exact hbs
    · have hself := b2jGet_self_of_ne_nil hi hnil
      have hp : (fun j => decide (l.getD j "" = l.getD i "")) i = true := by simp
      have hjs : b2jGet l (l.getD i "") =
          (List.range i).filter (fun j => decide (l.getD j "" = l.getD i "")) ++
            i :: (List.range' (i + 1) (l.length - (i + 1))).filter
              (fun j => decide (l.getD j "" = l.getD i "")) := by
        rw [b2jGet_ne_nil_eq hnil]
        exact range_filter_split _ hi hp
      rw [hjs, List.foldl_append, List.foldl_cons]
      set low := (List.range i).filter
        (fun j => decide (l.getD j "" = l.getD i "")) with hlowdef
      set high := (List.range' (i + 1) (l.length - (i + 1))).filter
        (fun j => decide (l.getD j "" = l.getD i "")) with hhighdef
      have hmem_low : ∀ j ∈ low, j ∈ b2jGet l (l.getD i "") := by
        intro j hj
        rw [hjs]
        exact List.mem_append_left _ hj
      have hmem_high : ∀ j ∈ high, j ∈ b2jGet l (l.getD i "") := by
        intro j hj
        rw [hjs]
        exact List.mem_append_right _ (List.mem_cons_of_mem _ hj)
      set st0 : (Nat → Nat) × Block := (fun _ => 0, (b1, b1, bs)) with hst0
      have h1 : (low.foldl (flmInnerStep f i) st0).2 = (b1, b1, bs) := by
        refine innerFold_no_update low f i st0 ?_
        intro j hj
        rw [hkval j (hmem_low j hj)]
        show runR l i j ≤ bs
        refine Nat.le_trans (runR_le_diag_j l i j) ?_
        refine Nat.le_trans (diagRun_le_maxDiagUpTo l i j ?_) hbs
        exact mem_range_filter_lt (hlowdef ▸ hj)
      set st1 := low.foldl (flmInnerStep f i) st0 with hst1
      have hk_i : kVal f i = diagRun l i := by
        rw [hkval i hself, runR_diag_eq]
      have hk_high : ∀ j ∈ high, kVal f j ≤ diagRun l i := by
        intro j hj
        rw [hkval j (hmem_high j hj)]
        exact runR_le_diag_i l i j hi
      have h2 : (flmInnerStep f i st1 i).2 =
          if bs < kVal f i then
            (i + 1 - kVal f i, i + 1 - kVal f i, kVal f i)
          else (b1, b1, bs) := by
        rw [flmInnerStep_best, h1]
      by_cases hup : bs < kVal f i
      · rw [if_pos hup] at h2
        have h3 : (high.foldl (flmInnerStep f i) (flmInnerStep f i st1 i)).2 =
            (i + 1 - kVal f i, i + 1 - kVal f i, kVal f i) := by
          rw [innerFold_no_update high f i _ ?_, h2]
          intro j hj
          rw [h2]
          show kVal f j ≤ kVal f i
          rw [hk_i]
          exact hk_high j hj
        rw [h3]
        refine ⟨rfl, ?_⟩
        show maxDiagUpTo l (i + 1) ≤ kVal f i
        unfold maxDiagUpTo
        rw [hk_i]
        exact Nat.max_le.mpr ⟨by omega, Nat.le_refl _⟩
      · rw [if_neg hup] at h2
        have h3 : (high.foldl (flmInnerStep f i) (flmInnerStep f i st1 i)).2 =
            (b1, b1, bs) := by
          rw [innerFold_no_update high f i _ ?_, h2]
          intro j hj
          rw [h2]
          show kVal f j ≤ bs
          refine Nat.le_trans (Nat.le_trans (hk_high j hj) ?_) (Nat.le_refl _)
          omega
        rw [h3]
        refine ⟨rfl, ?_⟩
        show maxDiagUpTo l (i + 1) ≤ bs
        unfold maxDiagUpTo
        exact Nat.max_le.mpr ⟨hbs, by omega⟩

theorem flmMain_diag_aux (l : List String) :
    ∀ (cnt start : Nat), start + cnt ≤ l.length →
      ∀ st : (Nat → Nat) × Block,
        (∀ j, st.1 j = rowFun l start j) → st.2.1 = st.2.2.1 →
        maxDiagUpTo l start ≤ st.2.2.2 →
        ((List.range' start cnt).foldl (flmOuterStep l l 0 l.length) st).2.1 =
          ((List.range' start cnt).foldl (flmOuterStep l l 0 l.length) st).2.2.1
  | 0, start, _, st, _, hd, _ => hd
  | cnt + 1, start, hle, st, hf, hd, hbs => by
    rw [List.range'_succ, List.foldl_cons]
    have hrow := flmRow_diag l start (by omega) st hf hd hbs
    exact flmMain_diag_aux l cnt (start + 1) (by omega) _
      hrow.1 hrow.2.1 hrow.2.2

theorem flmMain_self_diag (l : List String) :
    (flmMain l l 0 l.length 0 l.length).1 =
      (flmMain l l 0 l.length 0 l.length).2.1 := by
  unfold flmMain
  rw [Nat.sub_zero]
  exact flmMain_diag_aux l l.length 0 (by omega) (fun _ => 0, (0, 0, 0))
    (fun j => rfl) rfl (Nat.le_refl _)

theorem extendBack_self (l : List String) :
    ∀ (d s : Nat), extendBack l l 0 0 d d s = (0, 0, d + s)
  | 0, s => by
    rw [Nat.zero_add]
    rfl
  | d + 1, s => by
    unfold extendBack
    rw [if_pos ⟨Nat.succ_pos d, Nat.succ_pos d, by rw [Nat.add_sub_cancel]⟩]
    rw [Nat.add_sub_cancel]
    rw [extendBack_self l d (s + 1)]
    rw [show d + (s + 1) = d + 1 + s by omega]

theorem extendFwdAux_self (l : List String) :
    ∀ (gap k : Nat), k + gap ≤ l.length →
      extendFwdAux l l l.length 0 0 gap k = k + gap
  | 0, k, _ => rfl
  | gap + 1, k, h => by
    unfold extendFwdAux
    rw [if_pos ⟨by omega, rfl⟩]
    rw [extendFwdAux_self l gap (k + 1) (by omega)]
    omega

theorem extendBack_stop (a b : List String) (alo blo bj s : Nat) :
    extendBack a b alo blo alo bj s = (alo, bj, s) := by
  cases alo with
  | zero => rfl
  | succ a' =>
    unfold extendBack
    rw [if_neg]
    intro hc
    exact absurd hc.1 (Nat.lt_irrefl _)

theorem findLongestMatch_self (l : List String) :
    findLongestMatch l l 0 l.length 0 l.length = (0, 0, l.length) := by
  have hdiag := flmMain_self_diag l
  have hbnd := flmMain_bounds l l (Nat.zero_le l.length) (Nat.zero_le l.length)
  obtain ⟨h1, h2, h3, h4⟩ := hbnd
  unfold findLongestMatch
  set m := flmMain l l 0 l.length 0 l.length with hm
  dsimp only
  rw [← hdiag, extendBack_self l m.1 m.2.2]
  dsimp only
  unfold extendFwd
  rw [Nat.zero_add]
  rw [extendFwdAux_self l (l.length - (m.1 + m.2.2)) (m.1 + m.2.2) (by omega)]
  rw [show m.1 + m.2.2 + (l.length - (m.1 + m.2.2)) = l.length by omega]

theorem findLongestMatch_empty (a b : List String) (x y : Nat) :
    findLongestMatch a b x x y y = (x, y, 0) := by
  unfold findLongestMatch flmMain
  rw [Nat.sub_self]
  dsimp only [List.range', List.foldl_nil]
  rw [extendBack_stop]
  unfold extendFwd
  dsimp only
  rw [Nat.add_zero, Nat.sub_self]
  rfl

theorem matchingBlocksAux_empty (a b : List String) (x y : Nat) :
    ∀ fuel, matchingBlocksAux a b fuel x x y y = []
  | 0 => rfl
  | fuel + 1 => by
    unfold matchingBlocksAux
    rw [findLongestMatch_empty]
    rfl

theorem getMatchingBlocks_self (l : List String) :
    getMatchingBlocks l l =
      if l.length = 0 then [(0, 0, 0)]
      else [(0, 0, l.length), (l.length, l.length, 0)] := by
  unfold getMatchingBlocks
  by_cases hn : l.length = 0
  · rw [if_pos hn, hn, matchingBlocksAux_empty]
    rfl
  · rw [if_neg hn]
    have hblocks : matchingBlocksAux l l (l.length + l.length + 1) 0 l.length
        0 l.length = [(0, 0, l.length)] := by
      unfold matchingBlocksAux
      rw [findLongestMatch_self]
      dsimp only
      rw [if_neg hn, Nat.zero_add]
      rw [matchingBlocksAux_empty, matchingBlocksAux_empty]
      simp
    rw [hblocks]
    unfold mergeBlocks mergeAux
    rw [if_pos ⟨rfl, rfl⟩]
    unfold mergeAux
    rw [if_neg (by omega), Nat.zero_add]
    rfl

theorem getOpcodes_self (l : List String) :
    getOpcodes l l =
      if l.length = 0 then []
      else [⟨.equal, 0, l.length, 0, l.length⟩] := by
  unfold getOpcodes
  rw [getMatchingBlocks_self]
  by_cases hn : l.length = 0
  · rw [if_pos hn, if_pos hn]
    rfl
  · rw [if_neg hn, if_neg hn]
    have htail : opcodesAux l.length l.length [(l.length, l.length, 0)] = [] := by
      unfold opcodesAux
      rw [if_neg (fun hc => Nat.lt_irrefl l.length hc.1),
        if_neg (Nat.lt_irrefl l.length), if_neg (Nat.lt_irrefl l.length),
        if_neg (fun hc : (0 : Nat) ≠ 0 => hc rfl)]
      simp [opcodesAux]
    unfold opcodesAux
    rw [if_neg (fun hc => Nat.lt_irrefl 0 hc.1), if_neg (Nat.lt_irrefl 0),
      if_neg (Nat.lt_irrefl 0), if_pos hn]
    rw [Nat.zero_add, htail]
    simp

theorem equalEntries_all_equal : ∀ (ts : List String) (o n : Nat),
    (equalEntries o n ts).all isEqualEntry = true
  | [], _, _ => rfl
  | t :: ts, o, n => by
    unfold equalEntries
    rw [List.all_cons]
    exact equalEntries_all_equal ts (o + 1) (n + 1)

theorem equalEntries_length : ∀ (ts : List String) (o n : Nat),
    (equalEntries o n ts).length = ts.length
  | [], _, _ => rfl
  | t :: ts, o, n => by
    unfold equalEntries
    rw [List.length_cons, List.length_cons, equalEntries_length ts (o + 1) (n + 1)]

theorem slice_full (l : List String) : slice l 0 l.length = l := by
  unfold slice
  rw [List.drop_zero, Nat.sub_zero, List.take_length]

theorem diffEntries_self (l : List String) :
    diffEntries l l = equalEntries 1 1 l := by
  unfold diffEntries
  rw [getOpcodes_self]
  by_cases hn : l.length = 0
  · rw [if_pos hn]
    have : l = [] := List.length_eq_zero.mp hn
    subst this
    rfl
  · rw [if_neg hn]
    unfold diffEntriesAux
    dsimp only
    rw [slice_full]
    unfold diffEntriesAux
    rw [List.append_nil]

/-! ## Output line structure -/

theorem splitlinesAux_not_break :
    ∀ (cs acc : List Char), (∀ c ∈ acc, isLineBreak c = false) →
      ∀ s ∈ splitlinesAux cs acc, ∀ c ∈ s.data, isLineBreak c = false
  | [], acc, hacc, s, hs => by
    unfold splitlinesAux at hs
    split at hs
    · cases hs
    · rw [List.mem_singleton] at hs
      subst hs
      intro c hc
      exact hacc c (List.mem_reverse.mp hc)
  | [c0], acc, hacc, s, hs => by
    unfold splitlinesAux at hs
    split at hs
    · rcases List.mem_cons.mp hs with rfl | hs'
      · intro c hc
        exact hacc c (List.mem_reverse.mp hc)
      · exact splitlinesAux_not_break [] [] (by simp) s hs'
    · next hbrk =>
      refine splitlinesAux_not_break [] (c0 :: acc) ?_ s hs
      intro c hc
      rcases List.mem_cons.mp hc with rfl | hc'
      · exact Bool.not_eq_true _ ▸ hbrk
      · exact hacc c hc'
  | c0 :: c1 :: rest, acc, hacc, s, hs => by
    unfold splitlinesAux at hs
    split at hs
    · rcases List.mem_cons.mp hs with rfl | hs'
      · intro c hc
        exact hacc c (List.mem_reverse.mp hc)
      · exact splitlinesAux_not_break rest [] (by simp) s hs'
    · split at hs
      · rcases List.mem_cons.mp hs with rfl | hs'
        · intro c hc
          exact hacc c (List.mem_reverse.mp hc)
        · exact splitlinesAux_not_break (c1 :: rest) [] (by simp) s hs'
      · next hbrk =>
        refine splitlinesAux_not_break (c1 :: rest) (c0 :: acc) ?_ s hs
        intro c hc
        rcases List.mem_cons.mp hc with rfl | hc'
        · exact Bool.not_eq_true _ ▸ hbrk
        · exact hacc c hc'

theorem splitlinesAux_newline (rest acc : List Char) :
    splitlinesAux ('\n' :: rest) acc =
      String.mk acc.reverse :: splitlinesAux rest [] := by
  cases rest with
  | nil =>
    simp only [splitlinesAux]
    rw [if_pos (by decide)]
  | cons c2 rest2 =>
    simp only [splitlinesAux]
    rw [if_neg (fun hp => absurd hp.1 (by decide)), if_pos (by decide)]

theorem splitlinesAux_nonbreak (c : Char) (hc : isLineBreak c = false)
    (rest acc : List Char) :
    splitlinesAux (c :: rest) acc = splitlinesAux rest (c :: acc) := by
  have hcr : ¬ c = '\r' := by
    intro hcc
    rw [hcc] at hc
    exact absurd hc (by decide)
  cases rest with
  | nil =>
    simp only [splitlinesAux]
    rw [if_neg (by rw [hc]; exact Bool.false_ne_true)]
  | cons c2 rest2 =>
    simp only [splitlinesAux]
    rw [if_neg (fun hp => hcr hp.1), if_neg (by rw [hc]; exact Bool.false_ne_true)]

theorem splitlinesAux_firstLine :
    ∀ (cs : List Char), (∀ c ∈ cs, isLineBreak c = false) →
      ∀ (rest acc : List Char),
        splitlinesAux (cs ++ '\n' :: rest) acc =
          String.mk (acc.reverse ++ cs) :: splitlinesAux rest []
  | [], _, rest, acc => by
    rw [List.nil_append, List.append_nil, splitlinesAux_newline]
  | c :: cs', h, rest, acc => by
    have hc : isLineBreak c = false := h c (List.mem_cons_self _ _)
    rw [List.cons_append, splitlinesAux_nonbreak c hc]
    rw [splitlinesAux_firstLine cs'
      (fun x hx => h x (List.mem_cons_of_mem _ hx)) rest (c :: acc)]
    rw [List.reverse_cons, List.append_assoc]
    rfl

theorem splitlinesAux_last :
    ∀ (cs : List Char), (∀ c ∈ cs, isLineBreak c = false) →
      ∀ acc : List Char,
        splitlinesAux cs acc =
          if acc.reverse ++ cs = [] then []
          else [String.mk (acc.reverse ++ cs)]
  | [], _, acc => by
    rw [List.append_nil]
    cases acc with
    | nil => decide
    | cons a as =>
      simp only [splitlinesAux]
      rw [if_neg (by simp), if_neg (by simp)]
  | c :: cs', h, acc => by
    have hc : isLineBreak c = false := h c (List.mem_cons_self _ _)
    rw [splitlinesAux_nonbreak c hc]
    rw [splitlinesAux_last cs'
      (fun x hx => h x (List.mem_cons_of_mem _ hx)) (c :: acc)]
    rw [List.reverse_cons, List.append_assoc]
    rfl

theorem digitChar_not_break (n : Nat) (h : n < 10) :
    isLineBreak n.digitChar = false := by
  interval_cases n <;> decide

theorem toDigitsCore_not_break :
    ∀ (fuel n : Nat) (ds : List Char), (∀ c ∈ ds, isLineBreak c = false) →
      ∀ c ∈ Nat.toDigitsCore 10 fuel n ds, isLineBreak c = false
  | 0, _, _, hds, c, hc => hds c hc
  | fuel + 1, n, ds, hds, c, hc => by
    unfold Nat.toDigitsCore at hc
    dsimp only at hc
    split at hc
    · rcases List.mem_cons.mp hc with rfl | hc'
      · exact digitChar_not_break _ (Nat.mod_lt _ (by decide))
      · exact hds c hc'
    · refine toDigitsCore_not_break fuel (n / 10) ((n % 10).digitChar :: ds) ?_ c hc
      intro x hx
      rcases List.mem_cons.mp hx with rfl | hx'
      · exact digitChar_not_break _ (Nat.mod_lt _ (by decide))
      · exact hds x hx'

theorem toString_nat_not_break (n : Nat) :
    ∀ c ∈ (toString n).data, isLineBreak c = false :=
  toDigitsCore_not_break (n + 1) n [] (by simp)

theorem toDigitsCore_length_ge :
    ∀ (fuel n : Nat) (ds : List Char),
      ds.length ≤ (Nat.toDigitsCore 10 fuel n ds).length
  | 0, _, _ => Nat.le_refl _
  | fuel + 1, n, ds => by
    unfold Nat.toDigitsCore
    dsimp only
    split
    · exact Nat.le_succ _
    · exact Nat.le_trans (Nat.le_succ _)
        (toDigitsCore_length_ge fuel (n / 10) ((n % 10).digitChar :: ds))

theorem toString_nat_ne_nil (n : Nat) : (toString n).data ≠ [] := by
  intro hcon
  have h1 : (1 : Nat) ≤ (Nat.toDigitsCore 10 (n + 1) n []).length := by
    unfold Nat.toDigitsCore
    dsimp only
    split
    · exact Nat.le_refl _
    · exact Nat.le_trans (by simp)
        (toDigitsCore_length_ge n (n / 10) [(n % 10).digitChar])
  have h2 : (toString n).data = Nat.toDigitsCore 10 (n + 1) n [] := rfl
  rw [hcon] at h2
  rw [← h2] at h1
  exact absurd h1 (by decide)

theorem pad4_not_break (n : Nat) : ∀ c ∈ (pad4 n).data, isLineBreak c = false := by
  intro c hc
  unfold pad4 at hc
  dsimp only at hc
  split at hc
  · rw [String.data_append] at hc
    rcases List.mem_append.mp hc with hc' | hc'
    · have : c = ' ' := List.eq_of_mem_replicate hc'
      rw [this]
      decide
    · exact toString_nat_not_break n c hc'
  · exact toString_nat_not_break n c hc

theorem pad4_ne_nil (n : Nat) : (pad4 n).data ≠ [] := by
  unfold pad4
  dsimp only
  split
  · next hlt =>
    rw [String.data_append]
    intro hcon
    rcases List.append_eq_nil.mp hcon with ⟨h1, _⟩
    have : 4 - (toString n).length ≠ 0 := by
      omega
    rw [List.replicate_eq_nil_iff] at h1
    exact this h1
  · exact toString_nat_ne_nil n

theorem renderEntry_not_break_equal (o n : Nat) (t : String)
    (ht : ∀ c ∈ t.data, isLineBreak c = false) :
    ∀ c ∈ (renderEntry (.equal o n t)).data, isLineBreak c = false := by
  intro c hc
  unfold renderEntry at hc
  rw [String.data_append, String.data_append, String.data_append,
    String.data_append] at hc
  rcases List.mem_append.mp hc with hc1 | hc1
  · rcases List.mem_append.mp hc1 with hc2 | hc2
    · rcases List.mem_append.mp hc2 with hc3 | hc3
      · rcases List.mem_append.mp hc3 with hc4 | hc4
        · exact pad4_not_break o c hc4
        · exact (by decide : ∀ x ∈ " ".data, isLineBreak x = false) c hc4
      · exact pad4_not_break n c hc3
    · exact (by decide : ∀ x ∈ "  ".data, isLineBreak x = false) c hc2
  · exact ht c hc1

theorem renderEntry_not_break_removed (o : Nat) (t : String)
    (ht : ∀ c ∈ t.data, isLineBreak c = false) :
    ∀ c ∈ (renderEntry (.removed o t)).data, isLineBreak c = false := by
  intro c hc
  unfold renderEntry at hc
  rw [String.data_append, String.data_append] at hc
  rcases List.mem_append.mp hc with hc1 | hc1
  · rcases List.mem_append.mp hc1 with hc2 | hc2
    · exact pad4_not_break o c hc2
    · exact (by decide : ∀ x ∈ "      - ".data, isLineBreak x = false) c hc2
  · exact ht c hc1

theorem renderEntry_not_break_added (n : Nat) (t : String)
    (ht : ∀ c ∈ t.data, isLineBreak c = false) :
    ∀ c ∈ (renderEntry (.added n t)).data, isLineBreak c = false := by
  intro c hc
  unfold renderEntry at hc
  rw [String.data_append, String.data_append, String.data_append] at hc
  rcases List.mem_append.mp hc with hc1 | hc1
  · rcases List.mem_append.mp hc1 with hc2 | hc2
    · rcases List.mem_append.mp hc2 with hc3 | hc3
      · exact (by decide : ∀ x ∈ "     ".data, isLineBreak x = false) c hc3
      · exact pad4_not_break n c hc3
    · exact (by decide : ∀ x ∈ " + ".data, isLineBreak x = false) c hc2
  · exact ht c hc1

theorem renderEntry_ne_nil (e : DiffEntry) : (renderEntry e).data ≠ [] := by
  cases e with
  | equal o n t =>
    unfold renderEntry
    rw [String.data_append, String.data_append, String.data_append,
      String.data_append]
    intro hcon
    rcases List.append_eq_nil.mp hcon with ⟨h1, _⟩
    rcases List.append_eq_nil.mp h1 with ⟨h2, _⟩
    rcases List.append_eq_nil.mp h2 with ⟨h3, _⟩
    rcases List.append_eq_nil.mp h3 with ⟨h4, _⟩
    exact pad4_ne_nil o h4
  | removed o t =>
    unfold renderEntry
    rw [String.data_append, String.data_append]
    intro hcon
    rcases List.append_eq_nil.mp hcon with ⟨h1, _⟩
    rcases List.append_eq_nil.mp h1 with ⟨h2, _⟩
    exact pad4_ne_nil o h2
  | added n t =>
    unfold renderEntry
    rw [String.data_append, String.data_append, String.data_append]
    intro hcon
    rcases List.append_eq_nil.mp hcon with ⟨h1, _⟩
    rcases List.append_eq_nil.mp h1 with ⟨h2, _⟩
    rcases List.append_eq_nil.mp h2 with ⟨h3, _⟩
    exact absurd h3 (by decide)

theorem intercalate_go_data (s : String) :
    ∀ (as : List String) (acc₁ acc₂ : String),
      (String.intercalate.go (acc₁ ++ acc₂) s as).data =
        acc₁.data ++ (String.intercalate.go acc₂ s as).data
  | [], acc₁, acc₂ => String.data_append acc₁ acc₂
  | a :: as, acc₁, acc₂ => by
    show (String.intercalate.go (acc₁ ++ acc₂ ++ s ++ a) s as).data =
      acc₁.data ++ (String.intercalate.go (acc₂ ++ s ++ a) s as).data
    have h : acc₁ ++ acc₂ ++ s ++ a = acc₁ ++ (acc₂ ++ s ++ a) := by
      rw [String.append_assoc, String.append_assoc, String.append_assoc]
    rw [h]
    exact intercalate_go_data s as acc₁ (acc₂ ++ s ++ a)

theorem intercalate_data_cons (x y : String) (rest : List String) :
    (String.intercalate "\n" (x :: y :: rest)).data =
      x.data ++ '\n' :: (String.intercalate "\n" (y :: rest)).data := by
  show (String.intercalate.go (x ++ "\n" ++ y) "\n" rest).data =
    x.data ++ '\n' :: (String.intercalate.go y "\n" rest).data
  rw [intercalate_go_data "\n" rest (x ++ "\n") y]
  rw [String.data_append, List.append_assoc]
  rfl

theorem splitlines_intercalate :
    ∀ (lines : List String),
      (∀ s ∈ lines, s.data ≠ []) →
      (∀ s ∈ lines, ∀ c ∈ s.data, isLineBreak c = false) →
      splitlines (String.intercalate "\n" lines) = lines
  | [], _, _ => rfl
  | [x], hne, hnb => by
    show splitlinesAux x.data [] = [x]
    rw [splitlinesAux_last x.data (hnb x (by simp)) []]
    rw [if_neg (by simpa using hne x (by simp))]
    rfl
  | x :: y :: rest, hne, hnb => by
    show splitlinesAux (String.intercalate "\n" (x :: y :: rest)).data [] =
      x :: y :: rest
    rw [intercalate_data_cons]
    rw [splitlinesAux_firstLine x.data (hnb x (by simp)) _ []]
    have ih := splitlines_intercalate (y :: rest)
      (fun s hs => hne s (List.mem_cons_of_mem _ hs))
      (fun s hs => hnb s (List.mem_cons_of_mem _ hs))
    show x :: splitlines (String.intercalate "\n" (y :: rest)) = x :: y :: rest
    rw [ih]

theorem splitlines_not_break (t : String) :
    ∀ s ∈ splitlines t, ∀ c ∈ s.data, isLineBreak c = false :=
  splitlinesAux_not_break t.data [] (by simp)

theorem equalEntries_mem :
    ∀ (o n : Nat) (ts : List String) (e : DiffEntry), e ∈ equalEntries o n ts →
      ∃ o' n' t, e = .equal o' n' t ∧ t ∈ ts
  | _, _, [], _, he => absurd he (List.not_mem_nil _)
  | o, n, t :: ts, e, he => by
    rcases List.mem_cons.mp he with rfl | he'
    · exact ⟨o, n, t, rfl, by simp⟩
    · obtain ⟨o', n', t', het, hmem⟩ := equalEntries_mem (o + 1) (n + 1) ts e he'
      exact ⟨o', n', t', het, List.mem_cons_of_mem _ hmem⟩

/-- C9: for every text `t`, diffing `t` against itself yields an output in
which every structured entry is an `equal` entry (so no rendered line carries
the `-` marker of a removal or the `+` marker of an insertion — every output
line is the marker-free `equal` rendering of a line of `t`), and the number of
lines of the rendered output equals the number of lines of `t`. -/
theorem claim9_identical_texts (t : String) :
    (diffEntries (splitlines t) (splitlines t)).all isEqualEntry = true ∧
    splitlines (generate_git_style_diff t t) =
      (equalEntries 1 1 (splitlines t)).map renderEntry ∧
    (splitlines (generate_git_style_diff t t)).length = (splitlines t).length := by
  have hlines : splitlines (generate_git_style_diff t t) =
      (equalEntries 1 1 (splitlines t)).map renderEntry := by
    show splitlines (String.intercalate "\n"
      ((diffEntries (splitlines t) (splitlines t)).map renderEntry)) = _
    rw [diffEntries_self]
    refine splitlines_intercalate _ ?_ ?_
    · intro s hs
      obtain ⟨e, _, rfl⟩ := List.mem_map.mp hs
      exact renderEntry_ne_nil e
    · intro s hs
      obtain ⟨e, he, rfl⟩ := List.mem_map.mp hs
      obtain ⟨o', n', tx, rfl, htx⟩ := equalEntries_mem 1 1 _ e he
      exact renderEntry_not_break_equal o' n' tx (splitlines_not_break t tx htx)
  refine ⟨?_, hlines, ?_⟩
  · rw [diffEntries_self]
    exact equalEntries_all_equal (splitlines t) 1 1
  · rw [hlines, List.length_map]
    exact equalEntries_length (splitlines t) 1 1

end PrBuddy
